import Mathlib

/-!
Verification of the source-container-build and SBOM utility scripts.

Each Python function that a claim depends on is embedded as an executable
Lean definition over a shallow model of its data (Python strings become
either Lean strings or character lists, JSON objects become structures,
the file system becomes an association list from paths to contents).
Theorems then settle the spec claims against these definitions.
-/

namespace SourceBuild

/-! ## Image-reference parsing (source_build.py, parse_image_name)

Python string splitting is modelled on character lists: pySplitChar is
str.split(sep) for a one-character separator, pyRsplitOnceChar is
str.rsplit(sep, 1).
-/

/-- Model of Python str.split for a single-character separator.
Returns at least one (possibly empty) part. -/
def pySplitChar (c : Char) : List Char → List (List Char)
  | [] => [[]]
  | a :: as =>
    let r := pySplitChar c as
    if a = c then [] :: r
    else
      match r with
      | [] => [[a]]
      | h :: t => (a :: h) :: t

/-- Find the first occurrence of a character, returning the parts before
and after it. -/
def findCharSplit (c : Char) : List Char → Option (List Char × List Char)
  | [] => none
  | a :: as =>
    if a = c then some ([], as)
    else (findCharSplit c as).map (fun p => (a :: p.1, p.2))

/-- Model of Python str.rsplit(sep, 1) for a single-character separator:
split on the rightmost occurrence only. -/
def pyRsplitOnceChar (c : Char) (l : List Char) : List (List Char) :=
  match findCharSplit c l.reverse with
  | none => [l]
  | some (x, y) => [y.reverse, x.reverse]

/-- Embedding of parse_image_name from source_build.py: split on the first
at-sign to take the digest, then on the rightmost colon to take the tag.
Returns (name, tag, digest). -/
def parse_image_name (image : String) : String × String × String :=
  match pySplitChar '@' image.data with
  | [] => ("", "", "")
  | namePart :: rest =>
    let digest : List Char := match rest with | [] => [] | d :: _ => d
    match pyRsplitOnceChar ':' namePart with
    | [] => ("", "", "")
    | n :: rest2 =>
      let tag : List Char := match rest2 with | [] => [] | t :: _ => t
      (⟨n⟩, ⟨tag⟩, ⟨digest⟩)

theorem pySplitChar_not_mem {c : Char} : ∀ {l : List Char}, c ∉ l → pySplitChar c l = [l]
  | [], _ => rfl
  | a :: as, h => by
    have hac : a ≠ c := fun hh => h (hh ▸ List.mem_cons_self a as)
    have ih := @pySplitChar_not_mem c as (fun hm => h (List.mem_cons_of_mem a hm))
    simp [pySplitChar, hac, ih]

theorem findCharSplit_not_mem {c : Char} : ∀ {l : List Char}, c ∉ l → findCharSplit c l = none
  | [], _ => rfl
  | a :: as, h => by
    have hac : a ≠ c := fun hh => h (hh ▸ List.mem_cons_self a as)
    have ih := @findCharSplit_not_mem c as (fun hm => h (List.mem_cons_of_mem a hm))
    simp [findCharSplit, hac, ih]

theorem findCharSplit_append {c : Char} {l₂ : List Char} :
    ∀ {l₁ : List Char}, c ∉ l₁ → findCharSplit c (l₁ ++ c :: l₂) = some (l₁, l₂)
  | [], _ => by simp [findCharSplit]
  | a :: as, h => by
    have hac : a ≠ c := fun hh => h (hh ▸ List.mem_cons_self a as)
    have ih := @findCharSplit_append c l₂ as
      (fun hm => h (List.mem_cons_of_mem a hm))
    simp [findCharSplit, hac, ih]

theorem pyRsplitOnceChar_split {c : Char} {l₁ l₂ : List Char} (h : c ∉ l₂) :
    pyRsplitOnceChar c (l₁ ++ c :: l₂) = [l₁, l₂] := by
  have hrev : c ∉ l₂.reverse := by simpa using h
  have : (l₁ ++ c :: l₂).reverse = l₂.reverse ++ c :: l₁.reverse := by
    simp
  rw [pyRsplitOnceChar, this, findCharSplit_append hrev]
  simp

/-- The claim C4 as stated: a host-port reference with no tag and no digest
would keep its colon intact.  The code in fact splits it. -/
theorem parse_image_name_claimC4_counterexample :
    ¬ (parse_image_name "registry:5000/path" = ("registry:5000/path", "", "")) := by
  decide

/-- C4 (amended): the parser splits on the first at-sign to take the digest
and then on the rightmost colon to take the tag unconditionally, so a
host-port prefix with no tag is split: parsing registry:port/path with no
at-sign and no further colon yields name registry, tag port/path and an
empty digest. -/
theorem parse_image_name_splits_host_port
    (registry port path : String)
    (hat : '@' ∉ (registry ++ ":" ++ port ++ "/" ++ path).data)
    (hcp : ':' ∉ port.data) (hcs : ':' ∉ path.data) :
    parse_image_name (registry ++ ":" ++ port ++ "/" ++ path) =
      (registry, port ++ "/" ++ path, "") := by
  have hcolon : (":" : String).data = [':'] := rfl
  have hslash : ("/" : String).data = ['/'] := rfl
  have hdata2 : (port ++ "/" ++ path).data = port.data ++ '/' :: path.data := by
    simp [String.data_append, hslash]
  have hdata : (registry ++ ":" ++ port ++ "/" ++ path).data =
      registry.data ++ ':' :: (port ++ "/" ++ path).data := by
    simp [String.data_append, hcolon, hslash, List.append_assoc]
  have htail : ':' ∉ (port ++ "/" ++ path).data := by
    rw [hdata2]
    intro hm
    rcases List.mem_append.mp hm with h | h
    · exact hcp h
    · rcases List.mem_cons.mp h with h | h
      · exact absurd h (by decide)
      · exact hcs h
  have hsplit : pySplitChar '@' (registry ++ ":" ++ port ++ "/" ++ path).data =
      [(registry ++ ":" ++ port ++ "/" ++ path).data] := pySplitChar_not_mem hat
  have hr : pyRsplitOnceChar ':' (registry ++ ":" ++ port ++ "/" ++ path).data =
      [registry.data, (port ++ "/" ++ path).data] := by
    rw [hdata]
    exact pyRsplitOnceChar_split htail
  simp only [parse_image_name, hsplit, hr]

/-- Closed instance of the amended C4 theorem at a concrete reference. -/
theorem parse_image_name_splits_host_port_witness :
    parse_image_name "reg.io:5000/ns/app" = ("reg.io", "5000/ns/app", "") := by
  have h := parse_image_name_splits_host_port "reg.io" "5000" "ns/app"
    (by decide) (by decide) (by decide)
  simpa using h

/-! ## OCI layout model (source_build.py, classes Blob / Config / Manifest)

Blob contents are byte lists.  The blobs directory of one OCI layout is an
association list from path components to contents.  JSON serialization is
abstracted away: config and manifest data are kept structured, matching the
read-parse-modify-dump round trip of the JSONBlob class.  The sha256
function is a parameter of the operations that hash content; theorems hold
for every choice of it.
-/

/-- Byte string. -/
abbrev Bytes := List Nat

/-- The blob storage of one OCI image layout: path components to contents. -/
abbrev FileSystem := List (List String × Bytes)

/-- OCI descriptor, as in the DescriptorT TypedDict of source_build.py. -/
structure DescriptorT where
  mediaType : String
  digest : String
  size : Nat
  annotations : Option (List (String × String)) := none
deriving DecidableEq, Repr

/-- One entry of config .history, as in the HistoryT TypedDict. -/
structure HistoryT where
  created : Option String := none
  created_by : Option String := none
deriving DecidableEq, Repr

/-- Blob file path: Path(layout, "blobs", then the digest split on colon),
as in Blob.path. -/
def blobPath (digest : String) : List String :=
  "blobs" :: (pySplitChar ':' digest.data).map (fun l => (⟨l⟩ : String))

def fsLookup (fs : FileSystem) (p : List String) : Option Bytes :=
  match fs with
  | [] => none
  | (q, d) :: rest => if q = p then some d else fsLookup rest p

/-- Whole-file write: replace the binding if the path exists, else add it. -/
def fsWrite (fs : FileSystem) (p : List String) (c : Bytes) : FileSystem :=
  match fs with
  | [] => [(p, c)]
  | (q, d) :: rest => if q = p then (q, c) :: rest else (q, d) :: fsWrite rest p c

/-- Path.unlink: remove the binding, error when the file is absent. -/
def fsUnlink (fs : FileSystem) (p : List String) : Except String FileSystem :=
  match fs with
  | [] => .error "FileNotFoundError"
  | (q, d) :: rest =>
    if q = p then .ok rest else (fsUnlink rest p).map (fun r => (q, d) :: r)

/-- Total variant of fsUnlink used to state results. -/
def fsErase (fs : FileSystem) (p : List String) : FileSystem :=
  match fs with
  | [] => []
  | (q, d) :: rest => if q = p then rest else (q, d) :: fsErase rest p

/-- Model of Python str.removeprefix on character lists. -/
def pyRemovePre (pre s : List Char) : List Char :=
  if pre.isPrefixOf s then s.drop pre.length else s

/-- Model of str.removeprefix on strings. -/
def pyRemovePreS (pre s : String) : String := ⟨pyRemovePre pre.data s.data⟩

/-- A blob object: its descriptor plus the raw content, which stays none
until the content is read or assigned (Blob._raw_content). -/
structure Blob where
  descriptor : DescriptorT
  raw_content : Option Bytes := none
deriving DecidableEq, Repr

/-- Embedding of Blob.save.  hash models hashlib.sha256(...).hexdigest().
Returns the resulting blob object and the blob storage after the call; the
size of a newly written descriptor is read back from the file, hence equals
the content length. -/
def Blob.save (hash : Bytes → String) (b : Blob) (fs : FileSystem) : Blob × FileSystem :=
  match b.raw_content with
  | none => (b, fs)
  | some content =>
    let checksum := hash content
    let cur := pyRemovePreS "sha256:" b.descriptor.digest
    if cur = checksum then (b, fs)
    else
      let newD : DescriptorT :=
        { mediaType := b.descriptor.mediaType,
          digest := "sha256:" ++ checksum,
          size := content.length,
          annotations := b.descriptor.annotations }
      ({ descriptor := newD, raw_content := none },
        fsWrite fs (blobPath newD.digest) content)

theorem fsLookup_fsWrite_isSome (fs : FileSystem) (p q : List String) (c : Bytes)
    (h : (fsLookup fs q).isSome) : (fsLookup (fsWrite fs p c) q).isSome := by
  induction fs with
  | nil => simp [fsLookup] at h
  | cons hd tl ih =>
    obtain ⟨hp, hc⟩ := hd
    by_cases hqp : hp = p
    · subst hqp
      simp only [fsWrite, if_pos rfl, fsLookup]
      by_cases hq : hp = q <;> simp only [fsLookup, if_pos, if_neg, hq] at h ⊢ <;> simp_all [fsLookup]
    · simp only [fsWrite, if_neg hqp, fsLookup] at *
      by_cases hq : hp = q
      · simp [hq]
      · simp only [if_neg hq] at h ⊢
        exact ih h

/-- C5: the Blob.save contract.  An unread blob is returned unchanged with
the storage untouched; a blob whose content hashes to the digest already in
the descriptor is returned unchanged; otherwise the content is written to
blobs/sha256/new-hex and a fresh blob is returned whose descriptor keeps
mediaType and annotations, carries the new digest, and has size equal to
the content length.  In every case, no file present before the call is
deleted by the call. -/
theorem blob_save_contract (hash : Bytes → String) (b : Blob) (fs : FileSystem) :
    (b.raw_content = none → Blob.save hash b fs = (b, fs)) ∧
    (∀ c, b.raw_content = some c →
      hash c = pyRemovePreS "sha256:" b.descriptor.digest →
      Blob.save hash b fs = (b, fs)) ∧
    (∀ c, b.raw_content = some c →
      hash c ≠ pyRemovePreS "sha256:" b.descriptor.digest →
      Blob.save hash b fs =
        ({ descriptor :=
            { mediaType := b.descriptor.mediaType,
              digest := "sha256:" ++ hash c,
              size := c.length,
              annotations := b.descriptor.annotations },
           raw_content := none },
          fsWrite fs (blobPath ("sha256:" ++ hash c)) c)) ∧
    (∀ p, (fsLookup fs p).isSome → (fsLookup (Blob.save hash b fs).2 p).isSome) := by
  refine ⟨?_, ?_, ?_, ?_⟩
  · intro h
    simp [Blob.save, h]
  · intro c hc hh
    simp [Blob.save, hc, hh.symm]
  · intro c hc hh
    have : ¬ (pyRemovePreS "sha256:" b.descriptor.digest = hash c) := fun e => hh e.symm
    simp [Blob.save, hc, this]
  · intro p hp
    rcases hraw : b.raw_content with _ | c
    · simpa [Blob.save, hraw] using hp
    · by_cases he : pyRemovePreS "sha256:" b.descriptor.digest = hash c
      · simpa [Blob.save, hraw, he] using hp
      · simp only [Blob.save, hraw, if_neg he]
        exact fsLookup_fsWrite_isSome fs _ p c hp

/-- Closed instance of the Blob.save contract at concrete inputs. -/
theorem blob_save_contract_witness :
    Blob.save (fun c => String.join (c.map (fun n => toString n)))
      { descriptor := { mediaType := "m", digest := "sha256:0", size := 1 },
        raw_content := some [2, 3] } [] =
      ({ descriptor := { mediaType := "m", digest := "sha256:23", size := 2, annotations := none },
         raw_content := none },
        [(["blobs", "sha256", "23"], [2, 3])]) := by
  have h := (blob_save_contract (fun c => String.join (c.map (fun n => toString n)))
    { descriptor := { mediaType := "m", digest := "sha256:0", size := 1 },
      raw_content := some [2, 3] } []).2.2.1 [2, 3] rfl (by decide)
  rw [h]
  decide

/-! ## Manifest operations (source_build.py, Manifest / merge_image /
deduplicate_sources)

A manifest state bundles the three aligned arrays: the manifest layer
descriptors, the config rootfs diff_ids and the config history.  Python
list indexing errors (IndexError) and missing files surface as Except
errors.
-/

/-- The three aligned arrays of one manifest plus its config. -/
structure ManifestState where
  layers : List DescriptorT
  diff_ids : List String
  history : List HistoryT
deriving DecidableEq, Repr

instance : Inhabited DescriptorT :=
  ⟨{ mediaType := "", digest := "", size := 0 }⟩

instance : Inhabited HistoryT := ⟨{}⟩

/-- Python list indexing: error when out of range. -/
def pyGetAt (l : List α) (i : Nat) : Except String α :=
  match l.get? i with
  | some x => .ok x
  | none => .error "IndexError"

/-- Embedding of Manifest.remove_layer: locate the layer by descriptor
equality (first match, as in Manifest._find_layer), unlink its blob file,
and delete the descriptor together with the diff_id and history entry at
the same index.  Returns the new state, the new blob storage and the
removed triple. -/
def remove_layer (m : ManifestState) (fs : FileSystem) (layer : DescriptorT) :
    Except String (ManifestState × FileSystem × DescriptorT × String × HistoryT) :=
  match m.layers.findIdx? (fun d => d = layer) with
  | none => .error ("Layer with digest " ++ layer.digest ++ " does not exist")
  | some idx =>
    match fsUnlink fs (blobPath layer.digest) with
    | .error e => .error e
    | .ok fs2 =>
      match pyGetAt m.diff_ids idx with
      | .error e => .error e
      | .ok diff_id =>
        match pyGetAt m.history idx with
        | .error e => .error e
        | .ok history =>
          .ok ({ layers := m.layers.eraseIdx idx,
                 diff_ids := m.diff_ids.eraseIdx idx,
                 history := m.history.eraseIdx idx }, fs2, layer, diff_id, history)

/-- The loop of deduplicate_sources: walk the snapshot of the local
manifest layers; the first layer whose BSI identity is in the parent set
is removed, then the loop breaks.  identOf models building BSILayer from a
layer and taking its hash_key, the pair of blob member path and artifact
name; it is a function of the descriptor because the layer tarball is
content-addressed by the descriptor digest. -/
def dedupLoop (identOf : DescriptorT → String × String)
    (parents : List (String × String)) :
    List DescriptorT → ManifestState → FileSystem →
      Except String (ManifestState × FileSystem)
  | [], m, fs => .ok (m, fs)
  | l :: rest, m, fs =>
    if identOf l ∈ parents then
      (remove_layer m fs l).map (fun r => (r.1, r.2.1))
    else dedupLoop identOf parents rest m fs

/-- Embedding of deduplicate_sources: the parent identity set is built
from the parent manifest layers, then the local layers are walked. -/
def deduplicate_sources (identOf : DescriptorT → String × String)
    (parentLayers : List DescriptorT) (m : ManifestState) (fs : FileSystem) :
    Except String (ManifestState × FileSystem) :=
  dedupLoop identOf (parentLayers.map identOf) m.layers m fs

/-- The layer loop of merge_image: for each parent layer, in the traversal
order given, copy the blob file into the local layout and prepend the
descriptor to the accumulated layer list. -/
def mergeLayersLoop (parentFs : FileSystem) :
    List DescriptorT → List DescriptorT → FileSystem →
      Except String (List DescriptorT × FileSystem)
  | [], acc, fs => .ok (acc, fs)
  | d :: rest, acc, fs =>
    match fsLookup parentFs (blobPath d.digest) with
    | none => .error "FileNotFoundError"
    | some c =>
      mergeLayersLoop parentFs rest (d :: acc) (fsWrite fs (blobPath d.digest) c)

/-- Embedding of merge_image: walk the parent layers in reverse, copying
each blob and prepending its descriptor; then prepend each parent diff_id
and history entry in the same reversed order. -/
def merge_image (parentM localM : ManifestState) (parentFs localFs : FileSystem) :
    Except String (ManifestState × FileSystem) :=
  match mergeLayersLoop parentFs parentM.layers.reverse localM.layers localFs with
  | .error e => .error e
  | .ok r =>
    let diff_ids := parentM.diff_ids.reverse.foldl (fun acc x => x :: acc) localM.diff_ids
    let history := parentM.history.reverse.foldl (fun acc x => x :: acc) localM.history
    .ok ({ layers := r.1, diff_ids := diff_ids, history := history }, r.2)

/-- The layer pass of Manifest.save: for each cached layer blob object
still present in the manifest (first index by descriptor equality), check
the blob file exists, save the blob, and on a changed descriptor replace
it in place and delete the old file.  The config arrays are not touched by
this pass. -/
def manifestSaveLayers (hash : Bytes → String) :
    List Blob → List DescriptorT → FileSystem →
      Except String (List DescriptorT × FileSystem)
  | [], ds, fs => .ok (ds, fs)
  | b :: rest, ds, fs =>
    match ds.findIdx? (fun d => d = b.descriptor) with
    | none => manifestSaveLayers hash rest ds fs
    | some idx =>
      if (fsLookup fs (blobPath b.descriptor.digest)).isSome then
        let r := Blob.save hash b fs
        if r.1.descriptor = b.descriptor then manifestSaveLayers hash rest ds r.2
        else
          match fsUnlink r.2 (blobPath b.descriptor.digest) with
          | .error e => .error e
          | .ok fs3 => manifestSaveLayers hash rest (ds.set idx r.1.descriptor) fs3
      else .error ("layer " ++ b.descriptor.digest ++ " does not exist.")

/-- The pairwise alignment of the three arrays, as one list of triples. -/
def manifestZip (m : ManifestState) : List (DescriptorT × String × HistoryT) :=
  m.layers.zip (m.diff_ids.zip m.history)

theorem findIdx?_append_not {α : Type} {p : α → Bool} :
    ∀ {l₁ : List α} (l₂ : List α) (i : Nat), (∀ a ∈ l₁, ¬ p a) →
      (l₁ ++ l₂).findIdx? p i = l₂.findIdx? p (i + l₁.length)
  | [], l₂, i, _ => by simp
  | a :: as, l₂, i, h => by
    have ha : ¬ p a := h a (List.mem_cons_self a as)
    have ih := @findIdx?_append_not α p as l₂ (i + 1)
      (fun x hx => h x (List.mem_cons_of_mem a hx))
    simp only [List.cons_append, List.findIdx?_cons, ih, List.length_cons]
    rw [if_neg (by simpa using ha)]
    ring_nf

theorem findIdx?_none_of_all_not {α : Type} {p : α → Bool} :
    ∀ {l : List α} (i : Nat), (∀ a ∈ l, ¬ p a) → l.findIdx? p i = none
  | [], _, _ => rfl
  | a :: as, i, h => by
    have ha : ¬ p a := h a (List.mem_cons_self a as)
    have ih := @findIdx?_none_of_all_not α p as (i + 1)
      (fun x hx => h x (List.mem_cons_of_mem a hx))
    simp only [List.findIdx?_cons, ih]
    rw [if_neg (by simpa using ha)]

theorem fsUnlink_of_isSome :
    ∀ {fs : FileSystem} {p : List String}, (fsLookup fs p).isSome →
      fsUnlink fs p = .ok (fsErase fs p)
  | [], p, h => by simp [fsLookup] at h
  | (q, d) :: rest, p, h => by
    by_cases hq : q = p
    · simp [fsUnlink, fsErase, hq]
    · have hr : (fsLookup rest p).isSome := by
        simpa [fsLookup, hq] using h
      have ih := @fsUnlink_of_isSome rest p hr
      simp [fsUnlink, fsErase, hq, ih, Except.map]

theorem zip_eraseIdx {α β : Type} :
    ∀ (l₁ : List α) (l₂ : List β) (i : Nat),
      (l₁.zip l₂).eraseIdx i = (l₁.eraseIdx i).zip (l₂.eraseIdx i)
  | [], _, _ => by simp
  | _ :: _, [], _ => by simp
  | a :: as, b :: bs, 0 => by simp
  | a :: as, b :: bs, i + 1 => by
    simp only [List.zip_cons_cons, List.eraseIdx_cons_succ]
    rw [zip_eraseIdx as bs i]

theorem getD_append_cons {α : Type} (x d : α) (suf : List α) :
    ∀ (pre : List α), (pre ++ x :: suf).getD pre.length d = x
  | [] => by simp
  | a :: as => by
    simpa using getD_append_cons x d suf as

theorem pyGetAt_ok {α : Type} [Inhabited α] {l : List α} {i : Nat} (h : i < l.length) :
    pyGetAt l i = .ok (l.getD i default) := by
  rw [pyGetAt, List.get?_eq_getElem?, List.getElem?_eq_getElem h]
  simp [List.getD_eq_getElem?_getD, List.getElem?_eq_getElem h]

theorem dedupLoop_spec (identOf : DescriptorT → String × String)
    (parents : List (String × String)) (m : ManifestState) (fs : FileSystem)
    (hd : m.diff_ids.length = m.layers.length)
    (hh : m.history.length = m.layers.length)
    (hf : ∀ d ∈ m.layers, (fsLookup fs (blobPath d.digest)).isSome) :
    ∀ (suf pre : List DescriptorT), m.layers = pre ++ suf →
      (∀ d ∈ pre, identOf d ∉ parents) →
      dedupLoop identOf parents suf m fs =
        match suf.findIdx? (fun d => decide (identOf d ∈ parents)) pre.length with
        | none => .ok (m, fs)
        | some i =>
          .ok ({ layers := m.layers.eraseIdx i,
                 diff_ids := m.diff_ids.eraseIdx i,
                 history := m.history.eraseIdx i },
               fsErase fs (blobPath ((m.layers.getD i default).digest)))
  | [], pre, hsplit, hpre => by simp [dedupLoop]
  | l :: rest, pre, hsplit, hpre => by
    by_cases hmem : identOf l ∈ parents
    · have hfind : m.layers.findIdx? (fun d => decide (d = l)) = some pre.length := by
        rw [hsplit, findIdx?_append_not _ 0 (fun a ha => by
          simp only [decide_eq_true_eq]
          intro he
          exact hpre a ha (he ▸ hmem))]
        simp [List.findIdx?_cons]
      have hlmem : l ∈ m.layers := by
        rw [hsplit]; exact List.mem_append_right _ (List.mem_cons_self l rest)
      have hun : fsUnlink fs (blobPath l.digest) = .ok (fsErase fs (blobPath l.digest)) :=
        fsUnlink_of_isSome (hf l hlmem)
      have hlen : pre.length < m.layers.length := by
        rw [hsplit]; simp
      have hgd : pyGetAt m.diff_ids pre.length = .ok (m.diff_ids.getD pre.length default) :=
        pyGetAt_ok (hd ▸ hlen)
      have hgh : pyGetAt m.history pre.length = .ok (m.history.getD pre.length default) :=
        pyGetAt_ok (hh ▸ hlen)
      have hget : m.layers.getD pre.length default = l := by
        rw [hsplit]; exact getD_append_cons l default rest pre
      simp only [dedupLoop, if_pos hmem, remove_layer, hfind, hun, hgd, hgh,
        List.findIdx?_cons, decide_eq_true_eq, hmem, if_pos, hget]
      rfl
    · have ih := dedupLoop_spec identOf parents m fs hd hh hf rest (pre ++ [l])
        (by rw [hsplit, List.append_assoc]; rfl)
        (by
          intro d hdm
          rcases List.mem_append.mp hdm with h | h
          · exact hpre d h
          · rcases List.mem_singleton.mp h with rfl
            exact hmem)
      simp only [dedupLoop, if_neg hmem, ih, List.findIdx?_cons, decide_eq_true_eq, hmem,
        if_neg, List.length_append, List.length_singleton]
      simp

/-- C1: one deduplication pass removes at most one layer.  Walking the
local layers in order, the first layer whose BSI identity occurs among the
parent layer identities is removed together with the diff_id and history
entry at the same index and its blob file, and the walk stops there; when
no local layer matches, the manifest, the config arrays and the blob
storage are returned unchanged. -/
theorem deduplicate_sources_removes_first_match
    (identOf : DescriptorT → String × String) (parentLayers : List DescriptorT)
    (m : ManifestState) (fs : FileSystem)
    (hd : m.diff_ids.length = m.layers.length)
    (hh : m.history.length = m.layers.length)
    (hf : ∀ d ∈ m.layers, (fsLookup fs (blobPath d.digest)).isSome) :
    deduplicate_sources identOf parentLayers m fs =
      match m.layers.findIdx? (fun d => decide (identOf d ∈ parentLayers.map identOf)) with
      | none => .ok (m, fs)
      | some i =>
        .ok ({ layers := m.layers.eraseIdx i,
               diff_ids := m.diff_ids.eraseIdx i,
               history := m.history.eraseIdx i },
             fsErase fs (blobPath ((m.layers.getD i default).digest))) := by
  have h := dedupLoop_spec identOf (parentLayers.map identOf) m fs hd hh hf m.layers []
    (by simp) (by simp)
  simpa [deduplicate_sources] using h

/-- Closed instance of the C1 theorem: from two local layers the matching
second one is removed and the walk then stops. -/
theorem deduplicate_sources_removes_first_match_witness :
    deduplicate_sources (fun d => (d.digest, ""))
      [{ mediaType := "l", digest := "sha256:b", size := 1 }]
      { layers := [{ mediaType := "l", digest := "sha256:a", size := 1 },
                   { mediaType := "l", digest := "sha256:b", size := 1 }],
        diff_ids := ["da", "db"],
        history := [{ created := some "ta" }, { created := some "tb" }] }
      [(["blobs", "sha256", "a"], [0]), (["blobs", "sha256", "b"], [1])] =
      .ok ({ layers := [{ mediaType := "l", digest := "sha256:a", size := 1 }],
             diff_ids := ["da"],
             history := [{ created := some "ta" }] },
           [(["blobs", "sha256", "a"], [0])]) := by
  have h := deduplicate_sources_removes_first_match (fun d => (d.digest, ""))
    [{ mediaType := "l", digest := "sha256:b", size := 1 }]
    { layers := [{ mediaType := "l", digest := "sha256:a", size := 1 },
                 { mediaType := "l", digest := "sha256:b", size := 1 }],
      diff_ids := ["da", "db"],
      history := [{ created := some "ta" }, { created := some "tb" }] }
    [(["blobs", "sha256", "a"], [0]), (["blobs", "sha256", "b"], [1])]
    (by decide) (by decide) (by decide)
  rw [h]
  rfl

theorem mergeLayersLoop_ok_layers (parentFs : FileSystem) :
    ∀ (l acc : List DescriptorT) (fs : FileSystem) (r : List DescriptorT × FileSystem),
      mergeLayersLoop parentFs l acc fs = .ok r → r.1 = l.reverse ++ acc
  | [], acc, fs, r, h => by
    simp only [mergeLayersLoop] at h
    cases h
    simp
  | d :: rest, acc, fs, r, h => by
    simp only [mergeLayersLoop] at h
    cases hc : fsLookup parentFs (blobPath d.digest) with
    | none => rw [hc] at h; cases h
    | some c =>
      rw [hc] at h
      have := mergeLayersLoop_ok_layers parentFs rest (d :: acc) _ r h
      simp [this]

theorem manifestSaveLayers_ok_length (hash : Bytes → String) :
    ∀ (blobs : List Blob) (ds : List DescriptorT) (fs : FileSystem)
      (r : List DescriptorT × FileSystem),
      manifestSaveLayers hash blobs ds fs = .ok r → r.1.length = ds.length
  | [], ds, fs, r, h => by
    simp only [manifestSaveLayers] at h
    cases h
    rfl
  | b :: rest, ds, fs, r, h => by
    simp only [manifestSaveLayers] at h
    split at h
    · exact manifestSaveLayers_ok_length hash rest ds fs r h
    · split at h
      · split at h
        · exact manifestSaveLayers_ok_length hash rest ds _ r h
        · split at h
          · cases h
          · have := manifestSaveLayers_ok_length hash rest _ _ r h
            simpa using this
      · cases h

theorem pyGetAt_ok_lt {α : Type} {l : List α} {i : Nat} {x : α}
    (h : pyGetAt l i = .ok x) : i < l.length := by
  by_cases hlt : i < l.length
  · exact hlt
  · exfalso
    have : l.get? i = none := List.get?_eq_none.mpr (Nat.le_of_not_lt hlt)
    rw [pyGetAt, this] at h
    cases h

/-- C2: the three arrays stay aligned under every assembler operation.
remove_layer deletes the triple at one index (the first index whose
descriptor equals the given layer) from all three arrays at once;
merge_image concatenates the parent triples in front of the local triples;
the layer pass of Manifest.save keeps the layer count (and does not touch
diff_ids or history at all, as they are not among its inputs). -/
theorem manifest_ops_preserve_alignment
    (hash : Bytes → String) (blobs : List Blob)
    (p m : ManifestState) (pfs fs : FileSystem) (layer : DescriptorT)
    (hald : m.diff_ids.length = m.layers.length)
    (halh : m.history.length = m.layers.length)
    (hpald : p.diff_ids.length = p.layers.length)
    (hpalh : p.history.length = p.layers.length) :
    (∀ m2 fs2 rem, remove_layer m fs layer = .ok (m2, fs2, rem) →
      (m2.diff_ids.length = m2.layers.length ∧ m2.history.length = m2.layers.length) ∧
      ∃ i, m.layers.findIdx? (fun d => decide (d = layer)) = some i ∧
        manifestZip m2 = (manifestZip m).eraseIdx i) ∧
    (∀ m2 fs2, merge_image p m pfs fs = .ok (m2, fs2) →
      (m2.diff_ids.length = m2.layers.length ∧ m2.history.length = m2.layers.length) ∧
      manifestZip m2 = manifestZip p ++ manifestZip m) ∧
    (∀ ds2 fs2, manifestSaveLayers hash blobs m.layers fs = .ok (ds2, fs2) →
      ds2.length = m.layers.length) := by
  refine ⟨?_, ?_, ?_⟩
  · intro m2 fs2 rem hrem
    simp only [remove_layer] at hrem
    split at hrem
    · cases hrem
    · rename_i idx hidx
      split at hrem
      · cases hrem
      · rename_i fsu hun
        split at hrem
        · cases hrem
        · rename_i v hgd
          split at hrem
          · cases hrem
          · rename_i w hgh
            simp only [Except.ok.injEq, Prod.mk.injEq] at hrem
            obtain ⟨hm2, _⟩ := hrem
            have hid : idx < m.diff_ids.length := pyGetAt_ok_lt hgd
            have hih : idx < m.history.length := pyGetAt_ok_lt hgh
            have hil : idx < m.layers.length := hald ▸ hid
            subst hm2
            constructor
            · constructor <;>
                simp [List.length_eraseIdx, hid, hih, hil, hald, halh]
            · refine ⟨idx, hidx, ?_⟩
              rw [manifestZip, manifestZip, zip_eraseIdx, zip_eraseIdx]
  · intro m2 fs2 hmrg
    simp only [merge_image] at hmrg
    split at hmrg
    · cases hmrg
    · rename_i r hml
      simp only [Except.ok.injEq, Prod.mk.injEq] at hmrg
      obtain ⟨hm2, _⟩ := hmrg
      have hlay : r.1 = p.layers ++ m.layers := by
        have := mergeLayersLoop_ok_layers pfs p.layers.reverse m.layers fs r hml
        simpa using this
      have hdi : p.diff_ids.reverse.foldl (fun acc x => x :: acc) m.diff_ids =
          p.diff_ids ++ m.diff_ids := by simp
      have hhi : p.history.reverse.foldl (fun acc x => x :: acc) m.history =
          p.history ++ m.history := by simp
      subst hm2
      constructor
      · constructor <;> simp [hlay, hdi, hhi, hald, halh, hpald, hpalh]
      · simp only [manifestZip, hlay, hdi, hhi]
        rw [List.zip_append (by simp [hpald, hpalh]), List.zip_append]
        simp [hpald, hpalh, List.length_zip, hald, halh]
  · intro ds2 fs2 hsave
    exact manifestSaveLayers_ok_length hash blobs m.layers fs (ds2, fs2) hsave

/-- Closed instance of the C2 theorem: merging a one-layer parent into a
one-layer local build concatenates the aligned triples. -/
theorem manifest_ops_preserve_alignment_witness :
    merge_image
      { layers := [{ mediaType := "l", digest := "sha256:p", size := 1 }],
        diff_ids := ["dp"], history := [{ created := some "tp" }] }
      { layers := [{ mediaType := "l", digest := "sha256:a", size := 1 }],
        diff_ids := ["da"], history := [{ created := some "ta" }] }
      [(["blobs", "sha256", "p"], [7])] [(["blobs", "sha256", "a"], [0])] =
      .ok ({ layers := [{ mediaType := "l", digest := "sha256:p", size := 1 },
                        { mediaType := "l", digest := "sha256:a", size := 1 }],
             diff_ids := ["dp", "da"],
             history := [{ created := some "tp" }, { created := some "ta" }] },
           [(["blobs", "sha256", "a"], [0]), (["blobs", "sha256", "p"], [7])]) ∧
    manifestZip
      { layers := [{ mediaType := "l", digest := "sha256:p", size := 1 },
                   { mediaType := "l", digest := "sha256:a", size := 1 }],
        diff_ids := ["dp", "da"],
        history := [{ created := some "tp" }, { created := some "ta" }] } =
      manifestZip { layers := [{ mediaType := "l", digest := "sha256:p", size := 1 }],
                    diff_ids := ["dp"], history := [{ created := some "tp" }] } ++
      manifestZip { layers := [{ mediaType := "l", digest := "sha256:a", size := 1 }],
                    diff_ids := ["da"], history := [{ created := some "ta" }] } := by
  have hrun : merge_image
      { layers := [{ mediaType := "l", digest := "sha256:p", size := 1 }],
        diff_ids := ["dp"], history := [{ created := some "tp" }] }
      { layers := [{ mediaType := "l", digest := "sha256:a", size := 1 }],
        diff_ids := ["da"], history := [{ created := some "ta" }] }
      [(["blobs", "sha256", "p"], [7])] [(["blobs", "sha256", "a"], [0])] =
      .ok ({ layers := [{ mediaType := "l", digest := "sha256:p", size := 1 },
                        { mediaType := "l", digest := "sha256:a", size := 1 }],
             diff_ids := ["dp", "da"],
             history := [{ created := some "tp" }, { created := some "ta" }] },
           [(["blobs", "sha256", "a"], [0]), (["blobs", "sha256", "p"], [7])]) := by rfl
  refine ⟨hrun, ?_⟩
  have h := (manifest_ops_preserve_alignment (fun _ => "") []
    { layers := [{ mediaType := "l", digest := "sha256:p", size := 1 }],
      diff_ids := ["dp"], history := [{ created := some "tp" }] }
    { layers := [{ mediaType := "l", digest := "sha256:a", size := 1 }],
      diff_ids := ["da"], history := [{ created := some "ta" }] }
    [(["blobs", "sha256", "p"], [7])] [(["blobs", "sha256", "a"], [0])]
    default rfl rfl rfl rfl).2.1 _ _ hrun
  exact h.2

end SourceBuild

namespace MergeSboms

/-! ## SBOM merger (merge_sboms.py)

Components are modelled with the fields the SBOMItem protocol reads.  The
purl type and its parser and serializer come from the external packageurl
library, which is not part of this repository; they are modelled from the
spec (section 4.1: from_string yields a purl or no purl for unparsable
strings, to_string serializes with qualifier keys sorted).
-/

/-- Modelled from the spec: the purl value type of the external packageurl
library (type, namespace, name, version, qualifiers, subpath).  The
namespace and name fields are prefixed with a p where Lean reserves the
Python name. -/
structure PackageURL where
  ptype : String
  pnamespace : Option String := none
  pname : String
  version : Option String := none
  qualifiers : List (String × String) := []
  subpath : Option String := none
deriving DecidableEq, Repr

/-- Insertion step for sorting qualifier pairs by key. -/
def insertQual (q : String × String) : List (String × String) → List (String × String)
  | [] => [q]
  | x :: xs => if q.1 ≤ x.1 then q :: x :: xs else x :: insertQual q xs

/-- Sort qualifier pairs by key (serialization is qualifier-key sorted). -/
def sortQuals (l : List (String × String)) : List (String × String) :=
  l.foldr insertQual []

/-- Join qualifier pairs as key=value separated by ampersands. -/
def joinQuals : List (String × String) → String
  | [] => ""
  | [q] => q.1 ++ "=" ++ q.2
  | q :: rest => q.1 ++ "=" ++ q.2 ++ "&" ++ joinQuals rest

/-- Modelled from the spec: PackageURL.to_string of the external packageurl
library; deterministic serialization with qualifier keys sorted. -/
def PackageURL.to_string (p : PackageURL) : String :=
  "pkg:" ++ p.ptype ++ "/" ++
    (match p.pnamespace with | some ns => ns ++ "/" | none => "") ++ p.pname ++
    (match p.version with | some v => "@" ++ v | none => "") ++
    (match p.qualifiers with
     | [] => ""
     | qs => "?" ++ joinQuals (sortQuals qs)) ++
    (match p.subpath with | some sp => "#" ++ sp | none => "")

/-- Split a character list on the first equals sign: key=value pair. -/
def splitQual (l : List Char) : String × String :=
  match SourceBuild.findCharSplit '=' l with
  | none => (⟨l⟩, "")
  | some (k, v) => (⟨k⟩, ⟨v⟩)

/-- Modelled from the spec: try_parse_purl of merge_sboms.py, which wraps
PackageURL.from_string of the external packageurl library and yields none
for unparsable strings.  A parsable purl is
pkg:type/namespace-segments/name@version?qualifiers#subpath with nonempty
type and name; anything without the pkg scheme or without those parts is
unparsable. -/
def try_parse_purl (s : String) : Option PackageURL :=
  if ("pkg:".data).isPrefixOf s.data then
    let rest0 := s.data.drop 4
    let (rest1, subpath) :=
      match SourceBuild.pyRsplitOnceChar '#' rest0 with
      | [a, b] => (a, some (⟨b⟩ : String))
      | _ => (rest0, none)
    let (rest2, quals) :=
      match SourceBuild.pyRsplitOnceChar '?' rest1 with
      | [a, b] => (a, (SourceBuild.pySplitChar '&' b).map splitQual)
      | _ => (rest1, [])
    let (rest3, version) :=
      match SourceBuild.pyRsplitOnceChar '@' rest2 with
      | [a, b] => (a, some (⟨b⟩ : String))
      | _ => (rest2, none)
    match SourceBuild.pySplitChar '/' rest3 with
    | [] => none
    | [_] => none
    | t :: segs =>
      let name := segs.getLastD []
      let nsSegs := segs.dropLast
      if t.isEmpty ∨ name.isEmpty then none
      else
        some { ptype := (⟨t⟩ : String),
               pnamespace :=
                 if nsSegs.isEmpty then none
                 else some (⟨(nsSegs.intersperse ['/']).flatten⟩ : String),
               pname := (⟨name⟩ : String),
               version := version,
               qualifiers := quals,
               subpath := subpath }
  else none

/-- The SBOMItem protocol of merge_sboms.py: the four accessors a wrapped
component exposes. -/
structure SBOMItemFns (T : Type) where
  itemId : T → String
  name : T → String
  version : T → String
  purl : T → Option PackageURL

/-- Embedding of fallback_key: name at version, unless the name is empty
or starts with a dot or slash, in which case the id. -/
def fallback_key {T : Type} (fns : SBOMItemFns T) (package : T) : String :=
  let name := fns.name package
  let version := fns.version package
  if name ≠ "" ∧ ¬ (name.startsWith "." ∨ name.startsWith "/") then
    name ++ "@" ++ version
  else fns.itemId package

/-- The key function of merge_by_apparent_sameness: the serialized purl
when a purl is present, the fallback key otherwise. -/
def apparentKey {T : Type} (fns : SBOMItemFns T) (component : T) : String :=
  match fns.purl component with
  | some purl => purl.to_string
  | none => fallback_key fns component

/-- Embedding of _dedupe: fold the items into an insertion-ordered map
keyed by by_key, keeping the first item per key (dict.setdefault), then
take the values in insertion order. -/
def pyDedupe {T K : Type} [DecidableEq K] (items : List T) (by_key : T → K) : List T :=
  (items.foldl
    (fun acc item =>
      if acc.any (fun p => p.1 = by_key item) then acc
      else acc ++ [(by_key item, item)])
    []).map Prod.snd

/-- Embedding of _merge: dedupe the concatenation of both inputs. -/
def pyMerge {T K : Type} [DecidableEq K] (items_a items_b : List T) (by_key : T → K) :
    List T :=
  pyDedupe (items_a ++ items_b) by_key

/-- Embedding of merge_by_apparent_sameness. -/
def merge_by_apparent_sameness {T : Type} (fns : SBOMItemFns T)
    (components_a components_b : List T) : List T :=
  pyMerge components_a components_b (apparentKey fns)

/-- The wording of the spec: keep exactly the first occurrence of each
key, in first-occurrence order. -/
def keepFirstByKey {T K : Type} [DecidableEq K] (by_key : T → K) : List T → List T
  | [] => []
  | x :: xs =>
    x :: keepFirstByKey by_key (xs.filter (fun y => by_key y ≠ by_key x))
termination_by l => l.length
decreasing_by
  simp only [List.length_cons]
  exact Nat.lt_succ_of_le (List.length_filter_le _ _)

theorem pyDedupe_go {T K : Type} [DecidableEq K] (by_key : T → K) :
    ∀ (items : List T) (acc : List (K × T)),
      (items.foldl
        (fun acc item =>
          if acc.any (fun p => p.1 = by_key item) then acc
          else acc ++ [(by_key item, item)])
        acc) =
      acc ++ (keepFirstByKey by_key
        (items.filter (fun y => ¬ acc.any (fun p => p.1 = by_key y)))).map
          (fun x => (by_key x, x))
  | [], acc => by simp [keepFirstByKey]
  | x :: xs, acc => by
    by_cases hx : acc.any (fun p => p.1 = by_key x)
    · have ih := pyDedupe_go by_key xs acc
      rw [List.foldl_cons, if_pos hx, ih,
        List.filter_cons_of_neg (by simp only [decide_eq_true_eq, Decidable.not_not]; exact hx)]
    · have ih := pyDedupe_go by_key xs (acc ++ [(by_key x, x)])
      rw [List.foldl_cons, if_neg hx, ih,
        List.filter_cons_of_pos (by simp only [decide_eq_true_eq]; exact hx)]
      have hfil : xs.filter
          (fun y => ¬ (acc ++ [(by_key x, x)]).any (fun p => p.1 = by_key y)) =
          (xs.filter (fun y => ¬ acc.any (fun p => p.1 = by_key y))).filter
            (fun y => by_key y ≠ by_key x) := by
        rw [List.filter_filter]
        apply List.filter_congr
        intro y _
        rw [Bool.eq_iff_iff]
        simp only [decide_eq_true_eq, Bool.and_eq_true, List.any_append,
          Bool.or_eq_true, List.any_cons, List.any_nil, Bool.or_false, not_or, ne_eq]
        constructor
        · rintro ⟨h1, h2⟩
          exact ⟨fun h => h2 h.symm, h1⟩
        · rintro ⟨h1, h2⟩
          exact ⟨h2, fun h => h1 h.symm⟩
      rw [hfil, keepFirstByKey]
      simp [ne_eq, List.append_assoc]

/-- The dedupe loop equals the first-occurrence filter. -/
theorem pyDedupe_eq_keepFirst {T K : Type} [DecidableEq K]
    (items : List T) (by_key : T → K) :
    pyDedupe items by_key = keepFirstByKey by_key items := by
  rw [pyDedupe, pyDedupe_go by_key items []]
  have hid : (Prod.snd ∘ fun x => ((by_key x, x) : K × T)) = id := funext (fun x => rfl)
  have hfil : items.filter
      (fun y => ¬ ([] : List (K × T)).any (fun p => p.1 = by_key y)) = items := by
    apply (List.filter_eq_self).mpr
    intro y _
    simp
  rw [hfil]
  simp [List.map_map, hid]

theorem mem_of_mem_keepFirst {T K : Type} [DecidableEq K] (by_key : T → K) :
    ∀ (l : List T) (y : T), y ∈ keepFirstByKey by_key l → y ∈ l
  | [], y, h => by simp [keepFirstByKey] at h
  | x :: xs, y, h => by
    rw [keepFirstByKey] at h
    rcases List.mem_cons.mp h with rfl | h
    · exact List.mem_cons_self _ _
    · have := mem_of_mem_keepFirst by_key _ y h
      exact List.mem_cons_of_mem x (List.mem_of_mem_filter this)
termination_by l => l.length
decreasing_by
  simp only [List.length_cons]
  exact Nat.lt_succ_of_le (List.length_filter_le _ _)

theorem count_keepFirst {T K : Type} [DecidableEq K] (by_key : T → K) :
    ∀ (l : List T) (q : K),
      ((keepFirstByKey by_key l).map by_key).count q =
        if q ∈ l.map by_key then 1 else 0
  | [], q => by simp [keepFirstByKey]
  | x :: xs, q => by
    rw [keepFirstByKey]
    by_cases hq : q = by_key x
    · subst hq
      have h0 : ((keepFirstByKey by_key
          (xs.filter (fun y => by_key y ≠ by_key x))).map by_key).count (by_key x) = 0 := by
        apply List.count_eq_zero.mpr
        intro hmem
        rcases List.mem_map.mp hmem with ⟨y, hy, hk⟩
        have hy2 := mem_of_mem_keepFirst by_key _ y hy
        have := (List.mem_filter.mp hy2).2
        rw [hk] at this
        simp at this
      rw [List.map_cons, List.count_cons, h0]
      simp
    · have ih := count_keepFirst by_key (xs.filter (fun y => by_key y ≠ by_key x)) q
      have hmemiff : q ∈ (xs.filter (fun y => by_key y ≠ by_key x)).map by_key ↔
          q ∈ xs.map by_key := by
        constructor
        · intro h
          rcases List.mem_map.mp h with ⟨y, hy, rfl⟩
          exact List.mem_map_of_mem by_key (List.mem_of_mem_filter hy)
        · intro h
          rcases List.mem_map.mp h with ⟨y, hy, hk⟩
          refine List.mem_map.mpr ⟨y, List.mem_filter.mpr ⟨hy, ?_⟩, hk⟩
          simp only [ne_eq, decide_eq_true_eq]
          intro he
          rw [he] at hk
          exact hq hk.symm
      have hbx : ¬ by_key x = q := fun h => hq h.symm
      simp only [ne_eq] at ih hmemiff
      simp only [List.map_cons, List.count_cons]
      rw [ih]
      simp only [hmemiff]
      by_cases hin : q ∈ xs.map by_key
      · rw [if_pos hin]
        have hin2 : ∃ a ∈ xs, by_key a = q := by
          rcases List.mem_map.mp hin with ⟨a, ha, he⟩
          exact ⟨a, ha, he⟩
        simp [hbx, hq, hin2]
      · rw [if_neg hin]
        have hin2 : ¬ ∃ a ∈ xs, by_key a = q := by
          rintro ⟨a, ha, he⟩
          exact hin (List.mem_map.mpr ⟨a, ha, he⟩)
        simp [hbx, hq, hin2]
termination_by l _ => l.length
decreasing_by
  all_goals simp only [List.length_cons]
  all_goals exact Nat.lt_succ_of_le (List.length_filter_le _ _)

/-- C6: the apparent-sameness merge concatenates left items then right
items and keeps exactly the first occurrence per key, where the key is the
serialized purl when a purl is present and otherwise the fallback key
(name at version, or the id for an empty or dot- or slash-prefixed name);
output order is first-occurrence input order, and each key occurring in
either input occurs exactly once in the output. -/
theorem merge_by_apparent_sameness_spec {T : Type} (fns : SBOMItemFns T)
    (components_a components_b : List T) :
    merge_by_apparent_sameness fns components_a components_b =
      keepFirstByKey (apparentKey fns) (components_a ++ components_b) ∧
    ∀ q, ((merge_by_apparent_sameness fns components_a components_b).map
        (apparentKey fns)).count q =
      if q ∈ (components_a ++ components_b).map (apparentKey fns) then 1 else 0 := by
  constructor
  · exact pyDedupe_eq_keepFirst _ _
  · intro q
    rw [merge_by_apparent_sameness, pyMerge, pyDedupe_eq_keepFirst]
    exact count_keepFirst _ _ q

/-! ## SPDX package purl accessor (merge_sboms.py, SPDXPackage) -/

/-- One entry of an SPDX package's externalRefs list. -/
structure ExternalRef where
  referenceCategory : Option String := none
  referenceType : String
  referenceLocator : String
deriving DecidableEq, Repr

/-- The fields of an SPDX package that SPDXPackage reads. -/
structure SPDXPackageData where
  SPDXID : String
  name : String
  versionInfo : Option String := none
  externalRefs : List ExternalRef := []
deriving DecidableEq, Repr

/-- Embedding of SPDXPackage.all_purls: the referenceLocator of every
externalRefs entry with referenceType purl, keeping only those that parse
as purls. -/
def SPDXPackageData.all_purls (p : SPDXPackageData) : List PackageURL :=
  ((p.externalRefs.filter (fun ref => ref.referenceType = "purl")).map
    (fun ref => ref.referenceLocator)).filterMap try_parse_purl

/-- Embedding of SPDXPackage.purl: error when more than one parsed purl,
otherwise the single parsed purl or none. -/
def SPDXPackageData.purl (p : SPDXPackageData) : Except String (Option PackageURL) :=
  let purls := p.all_purls
  if purls.length > 1 then .error "multiple purls for SPDX package"
  else .ok purls.head?

/-- A package carrying two purl-typed external references, of which only
one parses as a purl. -/
def twoRefOnePurlPackage : SPDXPackageData :=
  { SPDXID := "SPDXRef-1", name := "requests",
    externalRefs :=
      [{ referenceType := "purl", referenceLocator := "pkg:pypi/requests@2.31.0" },
       { referenceType := "purl", referenceLocator := "not-a-purl" }] }

/-- The claim C9 as stated: the accessor errors if and only if the package
carries more than one purl-typed external reference.  False: with two
purl-typed references of which only one parses, the accessor succeeds. -/
theorem spdx_purl_claimC9_counterexample :
    (twoRefOnePurlPackage.externalRefs.filter
      (fun ref => ref.referenceType = "purl")).length > 1 ∧
    ∃ u, twoRefOnePurlPackage.purl = .ok (some u) := by
  refine ⟨by decide, ?_⟩
  exact ⟨{ ptype := "pypi", pname := "requests", version := some "2.31.0" }, by rfl⟩

/-- C9 (amended): the purl accessor errors if and only if more than one of
the purl-typed external references parses as a purl; with exactly one
parsed purl it returns it, and with none it returns no purl without
error. -/
theorem spdx_purl_errors_iff_multiple (p : SPDXPackageData) :
    ((∃ e, p.purl = .error e) ↔ p.all_purls.length > 1) ∧
    (∀ u, p.all_purls = [u] → p.purl = .ok (some u)) ∧
    (p.all_purls = [] → p.purl = .ok none) := by
  refine ⟨⟨?_, ?_⟩, ?_, ?_⟩
  · rintro ⟨e, he⟩
    rw [SPDXPackageData.purl] at he
    by_cases h : p.all_purls.length > 1
    · exact h
    · rw [if_neg h] at he
      cases he
  · intro h
    exact ⟨"multiple purls for SPDX package", by rw [SPDXPackageData.purl, if_pos h]⟩
  · intro u hu
    rw [SPDXPackageData.purl, if_neg (by rw [hu]; simp), hu]
    rfl
  · intro hu
    rw [SPDXPackageData.purl, if_neg (by rw [hu]; simp), hu]
    rfl

/-- Closed instance of the amended C9 theorem: a single parsed purl among
two purl-typed references is returned without error. -/
theorem spdx_purl_errors_iff_multiple_witness :
    SPDXPackageData.purl
      { SPDXID := "SPDXRef-1", name := "requests",
        externalRefs :=
          [{ referenceType := "purl", referenceLocator := "pkg:pypi/requests@2.31.0" },
           { referenceType := "purl", referenceLocator := "not-a-purl" }] } =
      .ok (some { ptype := "pypi", pname := "requests", version := some "2.31.0" }) := by
  exact (spdx_purl_errors_iff_multiple _).2.1
    { ptype := "pypi", pname := "requests", version := some "2.31.0" } (by rfl)

end MergeSboms

namespace BaseImagesSbom

/-! ## Base-images annotator (base_images_sbom_script.py)

The digest map is an association list from the stage's original image
reference to the resolved reference with digest.  The purl string of a
component is built through the modelled packageurl serializer.
-/

/-- One CycloneDX property. -/
structure PropertyT where
  name : String
  value : String
deriving DecidableEq, Repr

/-- The CDXComponent TypedDict of base_images_sbom_script.py.  The Python
key named type is called ctype here. -/
structure CDXComponent where
  ctype : String
  name : String
  purl : String
  properties : List PropertyT
deriving DecidableEq, Repr

/-- The ParsedImage named tuple. -/
structure ParsedImage where
  repository : String
  digest : String
  name : String
deriving DecidableEq, Repr

/-- Embedding of parse_image_reference_to_parts: split on the at-sign into
exactly two parts (tuple unpacking raises otherwise), split the left part
on the rightmost colon into repository and tag, and take the last
slash-separated fragment of the repository as the name. -/
def parse_image_reference_to_parts (image : String) :
    Except String ParsedImage :=
  match SourceBuild.pySplitChar '@' image.data with
  | [rwt, digest] =>
    match SourceBuild.pyRsplitOnceChar ':' rwt with
    | [repository, _] =>
      let name := (SourceBuild.pySplitChar '/' repository).getLastD []
      .ok { repository := (⟨repository⟩ : String), digest := (⟨digest⟩ : String),
            name := (⟨name⟩ : String) }
    | _ => .error "ValueError"
  | _ => .error "ValueError"

/-- The purl string built for one base image: an oci purl whose name is
the image name, whose version is the digest and whose single qualifier is
the repository. -/
def baseImagePurl (pi : ParsedImage) : String :=
  MergeSboms.PackageURL.to_string
    { ptype := "oci", pname := pi.name, version := some pi.digest,
      qualifiers := [("repository_url", pi.repository)] }

/-- A pseudo base: flatpak oci-archive or scratch. -/
def isPseudoStage (image : String) : Bool :=
  image.startsWith "oci-archive" || image = "scratch"

/-- The property attached for the stage at the given index out of n:
is_base_image true at the last index, is_builder_image:for_stage
elsewhere. -/
def stageProp (n index : Nat) : PropertyT :=
  if index = n - 1 then
    { name := "konflux:container:is_base_image", value := "true" }
  else
    { name := "konflux:container:is_builder_image:for_stage", value := toString index }

/-- Appending a property to every component with the given purl, as the
reuse branch of get_base_images_sbom_components does. -/
def addProperty (purl_str : String) (prop : PropertyT)
    (comps : List CDXComponent) : List CDXComponent :=
  comps.map (fun c =>
    if c.purl = purl_str then { c with properties := c.properties ++ [prop] }
    else c)

/-- The loop of get_base_images_sbom_components: walk the stages with
their indices, skip pseudo bases and stages missing from the digest map
(or mapped to a falsy empty string), and otherwise either append a new
component or append the property to the already-present component with
the same purl. -/
def goComponents (digests : List (String × String)) (n : Nat) :
    List String → Nat → List CDXComponent → List String →
      Except String (List CDXComponent)
  | [], _, comps, _ => .ok comps
  | image :: rest, index, comps, used =>
    if isPseudoStage image then goComponents digests n rest (index + 1) comps used
    else
      match digests.lookup image with
      | none => goComponents digests n rest (index + 1) comps used
      | some d =>
        if d = "" then goComponents digests n rest (index + 1) comps used
        else
          match parse_image_reference_to_parts d with
          | .error e => .error e
          | .ok pi =>
            let purl_str := baseImagePurl pi
            if purl_str ∈ used then
              goComponents digests n rest (index + 1)
                (addProperty purl_str (stageProp n index) comps) used
            else
              goComponents digests n rest (index + 1)
                (comps ++ [{ ctype := "container", name := pi.repository,
                             purl := purl_str,
                             properties := [stageProp n index] }])
                (used ++ [purl_str])

/-- Embedding of get_base_images_sbom_components. -/
def get_base_images_sbom_components (base_images : List String)
    (base_images_digests : List (String × String)) :
    Except String (List CDXComponent) :=
  goComponents base_images_digests base_images.length base_images 0 [] []

/-- The per-stage purl and property pairs, in stage order, that the loop
is expected to distribute over the components. -/
def expectedPairs (digests : List (String × String)) (n : Nat) :
    List String → Nat → List (String × PropertyT)
  | [], _ => []
  | image :: rest, index =>
    if isPseudoStage image then expectedPairs digests n rest (index + 1)
    else
      match digests.lookup image with
      | none => expectedPairs digests n rest (index + 1)
      | some d =>
        if d = "" then expectedPairs digests n rest (index + 1)
        else
          match parse_image_reference_to_parts d with
          | .error _ => []
          | .ok pi =>
            (baseImagePurl pi, stageProp n index) ::
              expectedPairs digests n rest (index + 1)

/-- A purl and property pair occurs in a component list. -/
def hasPair (comps : List CDXComponent) (purl : String) (pr : PropertyT) : Prop :=
  ∃ c ∈ comps, c.purl = purl ∧ pr ∈ c.properties

end BaseImagesSbom

namespace BaseImagesSbom

theorem addProperty_purl_map (purl_str : String) (prop : PropertyT)
    (comps : List CDXComponent) :
    (addProperty purl_str prop comps).map (fun c => c.purl) =
      comps.map (fun c => c.purl) := by
  rw [addProperty, List.map_map]
  apply List.map_congr_left
  intro c _
  by_cases hc : c.purl = purl_str <;> simp [hc]

theorem hasPair_addProperty (purl_str : String) (prop : PropertyT)
    (comps : List CDXComponent) (q : String) (p : PropertyT) :
    hasPair (addProperty purl_str prop comps) q p ↔
      (hasPair comps q p ∨
        (q = purl_str ∧ p = prop ∧ ∃ c ∈ comps, c.purl = purl_str)) := by
  constructor
  · rintro ⟨c2, hm, hq, hp⟩
    rcases List.mem_map.mp hm with ⟨c, hc, rfl⟩
    by_cases hcp : c.purl = purl_str
    · rw [if_pos hcp] at hq hp
      have hq2 : c.purl = q := hq
      have hp2 : p ∈ c.properties ++ [prop] := hp
      rcases List.mem_append.mp hp2 with hp3 | hp3
      · exact Or.inl ⟨c, hc, hq2, hp3⟩
      · rcases List.mem_singleton.mp hp3 with rfl
        exact Or.inr ⟨hq2 ▸ hcp, rfl, c, hc, hcp⟩
    · rw [if_neg hcp] at hq hp
      exact Or.inl ⟨c, hc, hq, hp⟩
  · rintro (⟨c, hc, hq, hp⟩ | ⟨hqs, hps, c, hc, hcp⟩)
    · by_cases hcp : c.purl = purl_str
      · exact ⟨{ c with properties := c.properties ++ [prop] },
          List.mem_map.mpr ⟨c, hc, by rw [if_pos hcp]⟩, hq,
          List.mem_append.mpr (Or.inl hp)⟩
      · exact ⟨c, List.mem_map.mpr ⟨c, hc, by rw [if_neg hcp]⟩, hq, hp⟩
    · subst hqs
      subst hps
      exact ⟨{ c with properties := c.properties ++ [p] },
        List.mem_map.mpr ⟨c, hc, by rw [if_pos hcp]⟩, hcp,
        List.mem_append.mpr (Or.inr (List.mem_singleton.mpr rfl))⟩

end BaseImagesSbom

namespace BaseImagesSbom

theorem goComponents_pairs (digests : List (String × String)) (n : Nat) :
    ∀ (imgs : List String) (index : Nat) (comps : List CDXComponent)
      (used : List String) (out : List CDXComponent),
      (∀ s, s ∈ used ↔ ∃ c ∈ comps, c.purl = s) →
      goComponents digests n imgs index comps used = .ok out →
      ∀ purl pr, hasPair out purl pr ↔
        (hasPair comps purl pr ∨ (purl, pr) ∈ expectedPairs digests n imgs index)
  | [], index, comps, used, out, hinv, hok, purl, pr => by
    simp only [goComponents] at hok
    cases hok
    simp [expectedPairs]
  | image :: rest, index, comps, used, out, hinv, hok, purl, pr => by
    simp only [goComponents] at hok
    by_cases hps : isPseudoStage image = true
    · rw [if_pos hps] at hok
      have hexp : expectedPairs digests n (image :: rest) index =
          expectedPairs digests n rest (index + 1) := by
        rw [expectedPairs, if_pos hps]
      rw [hexp]
      exact goComponents_pairs digests n rest (index + 1) comps used out hinv hok purl pr
    · rw [if_neg hps] at hok
      cases hlk : digests.lookup image with
      | none =>
        simp only [hlk] at hok
        have hexp : expectedPairs digests n (image :: rest) index =
            expectedPairs digests n rest (index + 1) := by
          rw [expectedPairs, if_neg hps, hlk]
        rw [hexp]
        exact goComponents_pairs digests n rest (index + 1) comps used out hinv hok purl pr
      | some d =>
        simp only [hlk] at hok
        by_cases hd : d = ""
        · rw [if_pos hd] at hok
          have hexp : expectedPairs digests n (image :: rest) index =
              expectedPairs digests n rest (index + 1) := by
            rw [expectedPairs, if_neg hps]
            simp only [hlk]
            rw [if_pos hd]
          rw [hexp]
          exact goComponents_pairs digests n rest (index + 1) comps used out hinv hok purl pr
        · rw [if_neg hd] at hok
          cases hparse : parse_image_reference_to_parts d with
          | error e =>
            simp only [hparse] at hok
            exact Except.noConfusion hok
          | ok pi =>
            simp only [hparse] at hok
            have hexp : expectedPairs digests n (image :: rest) index =
                (baseImagePurl pi, stageProp n index) ::
                  expectedPairs digests n rest (index + 1) := by
              rw [expectedPairs, if_neg hps]
              simp only [hlk]
              rw [if_neg hd]
              simp only [hparse]
            rw [hexp]
            by_cases hused : baseImagePurl pi ∈ used
            · rw [if_pos hused] at hok
              have hinv2 : ∀ s, s ∈ used ↔
                  ∃ c ∈ addProperty (baseImagePurl pi) (stageProp n index) comps,
                    c.purl = s := by
                intro s
                rw [hinv s]
                constructor
                · rintro ⟨c, hc, hcs⟩
                  by_cases hcp : c.purl = baseImagePurl pi
                  · exact ⟨{ c with properties :=
                        c.properties ++ [stageProp n index] },
                      List.mem_map.mpr ⟨c, hc, by rw [if_pos hcp]⟩, hcs⟩
                  · exact ⟨c, List.mem_map.mpr ⟨c, hc, by rw [if_neg hcp]⟩, hcs⟩
                · rintro ⟨c2, hm, hcs⟩
                  rcases List.mem_map.mp hm with ⟨c, hc, rfl⟩
                  by_cases hcp : c.purl = baseImagePurl pi
                  · rw [if_pos hcp] at hcs
                    exact ⟨c, hc, hcs⟩
                  · rw [if_neg hcp] at hcs
                    exact ⟨c, hc, hcs⟩
              have ih := goComponents_pairs digests n rest (index + 1)
                (addProperty (baseImagePurl pi) (stageProp n index) comps) used out
                hinv2 hok purl pr
              rw [ih, hasPair_addProperty]
              have hex : ∃ c ∈ comps, c.purl = baseImagePurl pi := (hinv _).mp hused
              constructor
              · rintro ((h | ⟨h1, h2, _⟩) | h)
                · exact Or.inl h
                · subst h1
                  subst h2
                  exact Or.inr (List.mem_cons_self _ _)
                · exact Or.inr (List.mem_cons_of_mem _ h)
              · rintro (h | h)
                · exact Or.inl (Or.inl h)
                · rcases List.mem_cons.mp h with he | h
                  · have h1 : purl = baseImagePurl pi := congrArg Prod.fst he
                    have h2 : pr = stageProp n index := congrArg Prod.snd he
                    exact Or.inl (Or.inr ⟨h1, h2, hex⟩)
                  · exact Or.inr h
            · rw [if_neg hused] at hok
              have hinv2 : ∀ s, s ∈ used ++ [baseImagePurl pi] ↔
                  ∃ c ∈ comps ++ [CDXComponent.mk "container" pi.repository
                    (baseImagePurl pi) [stageProp n index]], c.purl = s := by
                intro s
                rw [List.mem_append, List.mem_singleton, hinv s]
                constructor
                · rintro (⟨c, hc, hcs⟩ | rfl)
                  · exact ⟨c, List.mem_append.mpr (Or.inl hc), hcs⟩
                  · exact ⟨_, List.mem_append.mpr (Or.inr (List.mem_singleton.mpr rfl)), rfl⟩
                · rintro ⟨c, hm, hcs⟩
                  rcases List.mem_append.mp hm with hc | hc
                  · exact Or.inl ⟨c, hc, hcs⟩
                  · rcases List.mem_singleton.mp hc with rfl
                    exact Or.inr hcs.symm
              have ih := goComponents_pairs digests n rest (index + 1)
                (comps ++ [CDXComponent.mk "container" pi.repository
                  (baseImagePurl pi) [stageProp n index]])
                (used ++ [baseImagePurl pi]) out hinv2 hok purl pr
              rw [ih]
              have happ : hasPair (comps ++ [CDXComponent.mk "container" pi.repository
                  (baseImagePurl pi) [stageProp n index]]) purl pr ↔
                  hasPair comps purl pr ∨
                    (purl = baseImagePurl pi ∧ pr = stageProp n index) := by
                constructor
                · rintro ⟨c, hm, hcs, hp⟩
                  rcases List.mem_append.mp hm with hc | hc
                  · exact Or.inl ⟨c, hc, hcs, hp⟩
                  · rcases List.mem_singleton.mp hc with rfl
                    rcases List.mem_singleton.mp hp with rfl
                    exact Or.inr ⟨hcs.symm, rfl⟩
                · rintro (⟨c, hc, hcs, hp⟩ | ⟨rfl, rfl⟩)
                  · exact ⟨c, List.mem_append.mpr (Or.inl hc), hcs, hp⟩
                  · exact ⟨_, List.mem_append.mpr (Or.inr (List.mem_singleton.mpr rfl)),
                      rfl, List.mem_singleton.mpr rfl⟩
              rw [happ]
              constructor
              · rintro ((h | ⟨rfl, rfl⟩) | h)
                · exact Or.inl h
                · exact Or.inr (List.mem_cons_self _ _)
                · exact Or.inr (List.mem_cons_of_mem _ h)
              · rintro (h | h)
                · exact Or.inl (Or.inl h)
                · rcases List.mem_cons.mp h with he | h
                  · have h1 : purl = baseImagePurl pi := congrArg Prod.fst he
                    have h2 : pr = stageProp n index := congrArg Prod.snd he
                    exact Or.inl (Or.inr ⟨h1, h2⟩)
                  · exact Or.inr h

end BaseImagesSbom

namespace BaseImagesSbom

theorem expectedPairs_no_base (digests : List (String × String)) (n : Nat) :
    ∀ (imgs : List String) (index : Nat), index + imgs.length = n →
      (imgs = [] ∨ isPseudoStage (imgs.getLastD "") = true) →
      ∀ pair ∈ expectedPairs digests n imgs index,
        pair.2.name ≠ "konflux:container:is_base_image"
  | [], index, hlen, hlast, pair, hp => by simp [expectedPairs] at hp
  | image :: rest, index, hlen, hlast, pair, hp => by
    rcases hlast with hnil | hlast
    · cases hnil
    · cases rest with
      | nil =>
        have hps : isPseudoStage image = true := by simpa using hlast
        rw [expectedPairs, if_pos hps] at hp
        simp [expectedPairs] at hp
      | cons r rs =>
        have hlast2 : isPseudoStage ((r :: rs).getLastD "") = true := hlast
        have hlen2 : (index + 1) + (r :: rs).length = n := by
          simp only [List.length_cons] at hlen ⊢
          omega
        by_cases hps : isPseudoStage image = true
        · rw [expectedPairs, if_pos hps] at hp
          exact expectedPairs_no_base digests n (r :: rs) (index + 1) hlen2
            (Or.inr hlast2) pair hp
        · rw [expectedPairs, if_neg hps] at hp
          cases hlk : digests.lookup image with
          | none =>
            simp only [hlk] at hp
            exact expectedPairs_no_base digests n (r :: rs) (index + 1) hlen2
              (Or.inr hlast2) pair hp
          | some d =>
            simp only [hlk] at hp
            by_cases hd : d = ""
            · rw [if_pos hd] at hp
              exact expectedPairs_no_base digests n (r :: rs) (index + 1) hlen2
                (Or.inr hlast2) pair hp
            · rw [if_neg hd] at hp
              cases hparse : parse_image_reference_to_parts d with
              | error e =>
                simp only [hparse] at hp
                simp at hp
              | ok pi =>
                simp only [hparse] at hp
                rcases List.mem_cons.mp hp with rfl | hp2
                · have hne : index ≠ n - 1 := by
                    simp only [List.length_cons] at hlen
                    omega
                  simp only [stageProp, if_neg hne]
                  decide
                · exact expectedPairs_no_base digests n (r :: rs) (index + 1) hlen2
                    (Or.inr hlast2) pair hp2

/-- The claim C3 as stated: with stages builder then scratch, the claim
gives the builder component the is_base_image true property.  The code
instead marks it is_builder_image:for_stage 0 and marks nothing as the
base image. -/
theorem base_images_claimC3_counterexample :
    get_base_images_sbom_components ["r/a:t", "scratch"]
      [("r/a:t", "r/a:t@sha256:aaa")] =
      .ok [CDXComponent.mk "container" "r/a" "pkg:oci/a@sha256:aaa?repository_url=r/a"
      [PropertyT.mk "konflux:container:is_builder_image:for_stage" "0"]] ∧
    ∀ c ∈ [CDXComponent.mk "container" "r/a" "pkg:oci/a@sha256:aaa?repository_url=r/a"
      [PropertyT.mk "konflux:container:is_builder_image:for_stage" "0"]],
      ∀ pr ∈ c.properties, pr.name ≠ "konflux:container:is_base_image" := by
  constructor
  · rfl
  · decide

/-- C3 (amended): a non-pseudo stage at index i with a usable digest map
entry contributes is_base_image true exactly when i is the final stage
index, so when the build file ends in a pseudo stage (scratch or
oci-archive) no component carries is_base_image and every contributing
stage carries is_builder_image:for_stage with its index; the purl and
property pairs of the output are exactly the expected per-stage pairs. -/
theorem base_images_sbom_components_props
    (base_images : List String) (digests : List (String × String))
    (comps : List CDXComponent)
    (hok : get_base_images_sbom_components base_images digests = .ok comps) :
    (∀ purl pr, hasPair comps purl pr ↔
        (purl, pr) ∈ expectedPairs digests base_images.length base_images 0) ∧
    ((base_images = [] ∨ isPseudoStage (base_images.getLastD "") = true) →
      ∀ c ∈ comps, ∀ pr ∈ c.properties,
        pr.name ≠ "konflux:container:is_base_image") := by
  have h1 := goComponents_pairs digests base_images.length base_images 0 [] [] comps
    (by intro s; simp [hasPair]) hok
  constructor
  · intro purl pr
    have h := h1 purl pr
    simpa [hasPair] using h
  · intro hlast c hc pr hp
    have hpair : hasPair comps c.purl pr := ⟨c, hc, rfl, hp⟩
    have hmem := (h1 c.purl pr).mp hpair
    rcases hmem with h | h
    · simp [hasPair] at h
    · exact expectedPairs_no_base digests base_images.length base_images 0
        (by simp) hlast (c.purl, pr) h

/-- Closed instance of the amended C3 theorem at the two-stage example
ending in scratch. -/
theorem base_images_sbom_components_props_witness :
    (∀ purl pr, hasPair
        [CDXComponent.mk "container" "r/a" "pkg:oci/a@sha256:aaa?repository_url=r/a"
      [PropertyT.mk "konflux:container:is_builder_image:for_stage" "0"]] purl pr ↔
        (purl, pr) ∈ expectedPairs [("r/a:t", "r/a:t@sha256:aaa")] 2
          ["r/a:t", "scratch"] 0) ∧
    ((["r/a:t", "scratch"] = ([] : List String) ∨
        isPseudoStage ((["r/a:t", "scratch"] : List String).getLastD "") = true) →
      ∀ c ∈ [CDXComponent.mk "container" "r/a" "pkg:oci/a@sha256:aaa?repository_url=r/a"
      [PropertyT.mk "konflux:container:is_builder_image:for_stage" "0"]],
        ∀ pr ∈ c.properties, pr.name ≠ "konflux:container:is_base_image") :=
  base_images_sbom_components_props ["r/a:t", "scratch"]
    [("r/a:t", "r/a:t@sha256:aaa")] _ rfl

end BaseImagesSbom

namespace PrefetchWalk

/-! ## Prefetched-source gathering (source_build.py,
gather_prefetched_sources)

An os.walk run is modelled as the list of (directory path, file names)
entries it yields, in yield order.  The srpm generator sorts the
subdirectory list in place and sorts the file names, so its run is the
path-sorted enumeration; the source-archive generator consumes the
enumeration as given.  guess_mime is a parameter standing for
filetype.guess_mime on the file at root slash filename; it is determined
by the tree content.  Two runs over the same tree content have equal
canonical forms (entries sorted by path, file lists sorted).  Python
string comparison is modelled as code-point lexicographic comparison. -/

/-- Lexicographic strict comparison of character lists, the Python string
ordering. -/
def lexLtChars : List Char → List Char → Bool
  | [], [] => false
  | [], _ :: _ => true
  | _ :: _, [] => false
  | a :: as, b :: bs => if a = b then lexLtChars as bs else decide (a < b)

/-- Strict Python string comparison. -/
def pyStrLt (a b : String) : Prop := lexLtChars a.data b.data = true

/-- Python string less-or-equal. -/
def pyStrLe (a b : String) : Prop := (lexLtChars a.data b.data || a == b) = true

instance : DecidableRel pyStrLt := fun a b => by
  rw [pyStrLt]
  infer_instance

instance : DecidableRel pyStrLe := fun a b => by
  rw [pyStrLe]
  infer_instance

theorem lexLtChars_trans :
    ∀ {as bs cs : List Char}, lexLtChars as bs = true → lexLtChars bs cs = true →
      lexLtChars as cs = true
  | [], [], _ :: _, h1, _ => by cases h1
  | [], _ :: _, [], _, h2 => by cases h2
  | [], _ :: _, _ :: _, _, _ => rfl
  | _ :: _, [], _, h1, _ => by cases h1
  | _ :: _, _ :: _, [], _, h2 => by cases h2
  | a :: as, b :: bs, c :: cs, h1, h2 => by
    rw [lexLtChars] at h1 h2 ⊢
    by_cases hab : a = b
    · rw [if_pos hab] at h1
      by_cases hbc : b = c
      · rw [if_pos hbc] at h2
        rw [if_pos (hab.trans hbc)]
        exact lexLtChars_trans h1 h2
      · rw [if_neg hbc] at h2
        have hbclt : b < c := of_decide_eq_true h2
        have hac : a ≠ c := fun h => hbc (hab ▸ h)
        rw [if_neg hac]
        exact decide_eq_true (hab ▸ hbclt)
    · rw [if_neg hab] at h1
      have hablt : a < b := of_decide_eq_true h1
      by_cases hbc : b = c
      · have hac : a ≠ c := fun h => hab (h.trans hbc.symm)
        rw [if_neg hac]
        exact decide_eq_true (hbc ▸ hablt)
      · rw [if_neg hbc] at h2
        have hbclt : b < c := of_decide_eq_true h2
        have haclt : a < c := lt_trans hablt hbclt
        have hac : a ≠ c := ne_of_lt haclt
        rw [if_neg hac]
        exact decide_eq_true haclt

theorem lexLtChars_total :
    ∀ (as bs : List Char), lexLtChars as bs = true ∨ lexLtChars bs as = true ∨ as = bs
  | [], [] => Or.inr (Or.inr rfl)
  | [], _ :: _ => Or.inl rfl
  | _ :: _, [] => Or.inr (Or.inl rfl)
  | a :: as, b :: bs => by
    by_cases hab : a = b
    · rcases lexLtChars_total as bs with h | h | h
      · exact Or.inl (by rw [lexLtChars, if_pos hab]; exact h)
      · exact Or.inr (Or.inl (by rw [lexLtChars, if_pos hab.symm]; exact h))
      · exact Or.inr (Or.inr (by rw [hab, h]))
    · rcases lt_or_gt_of_ne (show a ≠ b from hab) with h | h
      · exact Or.inl (by rw [lexLtChars, if_neg hab]; exact decide_eq_true h)
      · refine Or.inr (Or.inl ?_)
        rw [lexLtChars, if_neg (fun he => hab he.symm)]
        exact decide_eq_true h

instance : IsTrans String pyStrLe := by
  constructor
  intro a b c h1 h2
  rw [pyStrLe, Bool.or_eq_true] at h1 h2 ⊢
  rcases h1 with h1 | h1
  · rcases h2 with h2 | h2
    · exact Or.inl (lexLtChars_trans h1 h2)
    · have hbc : b = c := eq_of_beq h2
      exact Or.inl (hbc ▸ h1)
  · have hab : a = b := eq_of_beq h1
    rcases h2 with h2 | h2
    · exact Or.inl (hab ▸ h2)
    · have hbc : b = c := eq_of_beq h2
      exact Or.inr (beq_iff_eq.mpr (hab.trans hbc))

instance : IsTotal String pyStrLe := by
  constructor
  intro a b
  rw [pyStrLe, pyStrLe, Bool.or_eq_true, Bool.or_eq_true]
  rcases lexLtChars_total a.data b.data with h | h | h
  · exact Or.inl (Or.inl h)
  · exact Or.inr (Or.inl h)
  · have : a = b := by
      cases a
      cases b
      exact congrArg String.mk (by simpa using h)
    exact Or.inl (Or.inr (beq_iff_eq.mpr this))

theorem pyStrLt_le {a b : String} (h : pyStrLt a b) : pyStrLe a b := by
  rw [pyStrLe, Bool.or_eq_true]
  exact Or.inl h

/-- One os.walk entry: the directory path and the file names in it. -/
abbrev WalkEntry := String × List String

/-- ARCHIVE_MIMETYPES from source_build.py. -/
def ARCHIVE_MIMETYPES : List String :=
  ["application/gzip", "application/x-bzip2", "application/x-compress",
   "application/x-tar", "application/x-xz", "application/zip"]

/-- Embedding of the generator _find_prefetch_source_archives: walk the
entries in the order given and yield each file whose mime type is an
archive type.  No sorting happens here. -/
def find_prefetch_source_archives (guess_mime : String → String → Option String)
    (walk : List WalkEntry) : List (String × String) :=
  walk.flatMap (fun e =>
    (e.2.filter (fun f =>
      match guess_mime e.1 f with
      | some m => decide (m ∈ ARCHIVE_MIMETYPES)
      | none => false)).map (fun f => (e.1, f)))

/-- Embedding of the generator _find_prefetch_srpm_archives: walk the
entries, sorting the file names, and yield each .src.rpm file whose mime
type is application/x-rpm.  The in-place dirs.sort() of the source makes
the entry order path-sorted, which the theorems below take as a
hypothesis on the run. -/
def find_prefetch_srpm_archives (guess_mime : String → String → Option String)
    (walk : List WalkEntry) : List (String × String) :=
  walk.flatMap (fun e =>
    ((List.insertionSort pyStrLe e.2).filter (fun f =>
      f.endsWith ".src.rpm" &&
        match guess_mime e.1 f with
        | some m => decide (m = "application/x-rpm")
        | none => false)).map (fun f => (e.1, f)))

/-- The src-N staging assignment: the N-th found archive goes to src-N,
as the source_counter loop of gather_prefetched_sources does. -/
def sourceArchiveAssignment (guess_mime : String → String → Option String)
    (walk : List WalkEntry) : List (String × (String × String)) :=
  (find_prefetch_source_archives guess_mime walk).enum.map
    (fun p => ("src-" ++ toString p.1, p.2))

/-- The rpm_dir copy loop of gather_prefetched_sources as a function of
the srpm scan: destination names map to the source files copied there; on
a name collision the hashed unique names decide between skipping and
copying under the hashed name.  fileHash models sha256 of the source
file. -/
def rpmDirFold (fileHash : String × String → String) :
    List (String × String) → List (String × (String × String)) →
      List (String × (String × String))
  | [], dest => dest
  | rf :: rest, dest =>
    let filename := rf.2
    match dest.lookup filename with
    | none => rpmDirFold fileHash rest (dest ++ [(filename, rf)])
    | some prev =>
      let unique_src := fileHash rf ++ "-" ++ filename
      let unique_dest := fileHash prev ++ "-" ++ prev.2
      if unique_src ≠ unique_dest then
        rpmDirFold fileHash rest (dest ++ [(unique_src, rf)])
      else rpmDirFold fileHash rest dest

/-- An entry with its file list in canonical sorted order. -/
def canonEntry (e : WalkEntry) : WalkEntry :=
  (e.1, List.insertionSort pyStrLe e.2)

/-- The canonical form of a run: entries sorted by path, file lists
sorted.  Two runs enumerate the same tree content exactly when their
canonical forms agree. -/
def canonWalk (walk : List WalkEntry) : List WalkEntry :=
  List.insertionSort (fun a b => pyStrLe a.1 b.1) (walk.map canonEntry)

/-- The claim C8 as stated: both scans are order-independent.  False: two
runs of the same one-directory content whose file enumeration orders
differ assign the archives to src-0 and src-1 in opposite ways. -/
theorem gather_claimC8_counterexample :
    canonWalk [("output", ["a", "b"])] = canonWalk [("output", ["b", "a"])] ∧
    List.Sorted pyStrLt ([(("output", ["a", "b"]) : WalkEntry)].map Prod.fst) ∧
    List.Sorted pyStrLt ([(("output", ["b", "a"]) : WalkEntry)].map Prod.fst) ∧
    sourceArchiveAssignment (fun _ _ => some "application/gzip")
        [("output", ["a", "b"])] ≠
      sourceArchiveAssignment (fun _ _ => some "application/gzip")
        [("output", ["b", "a"])] := by
  refine ⟨by decide, by simp, by simp, by decide⟩

theorem sorted_map_fst_canon (w : List WalkEntry)
    (h : List.Sorted pyStrLt (w.map Prod.fst)) :
    List.Sorted (fun a b : WalkEntry => pyStrLe a.1 b.1) (w.map canonEntry) := by
  have h2 : List.Sorted (fun a b : WalkEntry => pyStrLt a.1 b.1) w := by
    exact List.pairwise_map.mp h
  have h3 : List.Sorted (fun a b : WalkEntry => pyStrLt a.1 b.1) (w.map canonEntry) := by
    rw [List.Sorted, List.pairwise_map]
    exact h2.imp (fun {a b} hab => hab)
  exact h3.imp (fun {a b} hab => pyStrLt_le hab)

theorem canonWalk_eq_map_canonEntry (w : List WalkEntry)
    (h : List.Sorted pyStrLt (w.map Prod.fst)) :
    canonWalk w = w.map canonEntry :=
  List.Sorted.insertionSort_eq (sorted_map_fst_canon w h)

theorem insertionSort_idem (l : List String) :
    List.insertionSort pyStrLe (List.insertionSort pyStrLe l) =
      List.insertionSort pyStrLe l :=
  List.Sorted.insertionSort_eq (List.sorted_insertionSort _ l)

theorem flatMap_congr_local {A B : Type} (l : List A) (f g : A → List B)
    (h : ∀ a ∈ l, f a = g a) : l.flatMap f = l.flatMap g := by
  induction l with
  | nil => rfl
  | cons x xs ih =>
    simp only [List.flatMap_cons, h x (List.mem_cons_self x xs)]
    rw [ih (fun a ha => h a (List.mem_cons_of_mem x ha))]

theorem find_srpm_factors (guess_mime : String → String → Option String)
    (w : List WalkEntry) :
    find_prefetch_srpm_archives guess_mime w =
      find_prefetch_srpm_archives guess_mime (w.map canonEntry) := by
  rw [find_prefetch_srpm_archives, find_prefetch_srpm_archives, List.flatMap_map]
  apply flatMap_congr_local
  intro e _
  show _ = ((List.insertionSort pyStrLe (canonEntry e).2).filter _).map
    (fun f => ((canonEntry e).1, f))
  rw [show (canonEntry e).2 = List.insertionSort pyStrLe e.2 from rfl,
    show (canonEntry e).1 = e.1 from rfl, insertionSort_idem]

/-- C8 (amended): only the SRPM scan is order-independent.  For two runs
over the same tree content (equal canonical forms) that are path-sorted,
the SRPM scans coincide, hence the rpm_dir contents coincide; the
source-archive scan carries no sorting, and its src-N assignment depends
on the enumeration order (see the counterexample). -/
theorem srpm_scan_deterministic (guess_mime : String → String → Option String)
    (fileHash : String × String → String) (w1 w2 : List WalkEntry)
    (h1 : List.Sorted pyStrLt (w1.map Prod.fst))
    (h2 : List.Sorted pyStrLt (w2.map Prod.fst))
    (heq : canonWalk w1 = canonWalk w2) :
    find_prefetch_srpm_archives guess_mime w1 =
      find_prefetch_srpm_archives guess_mime w2 ∧
    rpmDirFold fileHash (find_prefetch_srpm_archives guess_mime w1) [] =
      rpmDirFold fileHash (find_prefetch_srpm_archives guess_mime w2) [] := by
  have hmaps : w1.map canonEntry = w2.map canonEntry := by
    rw [← canonWalk_eq_map_canonEntry w1 h1, ← canonWalk_eq_map_canonEntry w2 h2, heq]
  have hscan : find_prefetch_srpm_archives guess_mime w1 =
      find_prefetch_srpm_archives guess_mime w2 := by
    rw [find_srpm_factors guess_mime w1, find_srpm_factors guess_mime w2, hmaps]
  exact ⟨hscan, by rw [hscan]⟩

/-- Closed instance of the amended C8 theorem: two path-sorted runs of the
same content with differently ordered file lists give the same SRPM
scan. -/
theorem srpm_scan_deterministic_witness :
    find_prefetch_srpm_archives
        (fun _ _ => some "application/x-rpm")
        [("output", ["b.src.rpm", "a.src.rpm"])] =
      find_prefetch_srpm_archives
        (fun _ _ => some "application/x-rpm")
        [("output", ["a.src.rpm", "b.src.rpm"])] :=
  (srpm_scan_deterministic (fun _ _ => some "application/x-rpm")
    (fun _ => "h") [("output", ["b.src.rpm", "a.src.rpm"])]
    [("output", ["a.src.rpm", "b.src.rpm"])]
    (by simp) (by simp) (by decide)).1

end PrefetchWalk

namespace AddImageReference

/-! ## SPDX add-image-reference (add_image_reference.py)

The SPDX relationship dicts are shared between the live relationships
list and the snapshot copy the loop iterates over, and they are mutated
in place.  The model gives every relationship dict an identity (a natural
number), keeps the current contents in a heap function, the live list and
the loop snapshot as lists of identifiers.  Packages only ever have their
SPDXID and name read, so they are modelled by those two fields. -/

/-- One SPDX relationship. -/
structure Rel where
  spdxElementId : String
  relationshipType : String
  relatedSpdxElement : String
deriving DecidableEq, Repr

/-- The fields of an SPDX package the script reads. -/
structure Package where
  SPDXID : String
  name : String
deriving DecidableEq, Repr

/-- Embedding of find_package_by_spdx_id: first package with the id. -/
def find_package_by_spdx_id (packages : List Package) (spdx_id : String) :
    Option Package :=
  packages.find? (fun p => p.SPDXID = spdx_id)

/-- Embedding of delete_package_by_spdx_id: remove the first package with
the id (list.remove removes the first equal element, which is the found
one because equality implies an equal SPDXID). -/
def delete_package_by_spdx_id : List Package → String → List Package
  | [], _ => []
  | p :: rest, i =>
    if p.SPDXID = i then rest else p :: delete_package_by_spdx_id rest i

/-- Embedding of delete_relationship_by_related_spdx_id on the live list:
remove the first relationship whose relatedSpdxElement is the id. -/
def delete_relationship_by_related (heap : Nat → Rel) :
    List Nat → String → List Nat
  | [], _ => []
  | i :: rest, v =>
    if (heap i).relatedSpdxElement = v then rest
    else i :: delete_relationship_by_related heap rest v

/-- Embedding of redirect_virtual_root_to_new_root: walk the live list
and mutate each dict whose spdxElementId or relatedSpdxElement is the
virtual root. -/
def redirect_virtual_root_to_new_root (rels : List Nat) (heap : Nat → Rel)
    (virtual_root new_root : String) : Nat → Rel :=
  rels.foldl
    (fun h i =>
      let r := h i
      let r1 := if r.spdxElementId = virtual_root then
          { r with spdxElementId := new_root } else r
      let r2 := if r1.relatedSpdxElement = virtual_root then
          { r1 with relatedSpdxElement := new_root } else r1
      fun j => if j = i then r2 else h j)
    heap

/-- Embedding of is_virtual_root: empty or dot-prefixed name (the dot
test is str.startswith on the character list). -/
def is_virtual_root (package : Package) : Bool :=
  package.name = "" || ("." : String).data.isPrefixOf package.name.data

/-- A relationship that describes the document
(describes_the_document). -/
def docDescribes (doc_spdx_id : String) (r : Rel) : Prop :=
  r.spdxElementId = doc_spdx_id ∧ r.relationshipType = "DESCRIBES"

instance (doc_spdx_id : String) (r : Rel) : Decidable (docDescribes doc_spdx_id r) := by
  rw [docDescribes]
  infer_instance

/-- The loop of redirect_current_roots_to_new_root over the snapshot of
relationship identities.  A document-describing relationship whose
target package is missing makes is_virtual_root(None) raise, which the
model surfaces as an error. -/
def redirectLoop (docid new_root : String) :
    List Nat → List Package → List Nat → (Nat → Rel) →
      Except String (List Package × List Nat × (Nat → Rel))
  | [], pkgs, rels, heap => .ok (pkgs, rels, heap)
  | i :: order, pkgs, rels, heap =>
    let r := heap i
    if docDescribes docid r then
      match find_package_by_spdx_id pkgs r.relatedSpdxElement with
      | none => .error "AttributeError: NoneType has no attribute get"
      | some current_root =>
        if is_virtual_root current_root then
          let pkgs2 := delete_package_by_spdx_id pkgs r.relatedSpdxElement
          let rels2 := delete_relationship_by_related heap rels r.relatedSpdxElement
          let heap2 := redirect_virtual_root_to_new_root rels2 heap
            r.relatedSpdxElement new_root
          redirectLoop docid new_root order pkgs2 rels2 heap2
        else
          let heap2 := fun j => if j = i then
              { r with spdxElementId := new_root, relationshipType := "CONTAINS" }
            else heap j
          redirectLoop docid new_root order pkgs rels heap2
    else redirectLoop docid new_root order pkgs rels heap

/-- Embedding of update_package_in_spdx_sbom: insert the SPDXRef-image
package at the front, run the root redirection over a snapshot of the
relationship list, and insert the document-DESCRIBES-image relationship
at the front.  Returns the final packages and relationship contents. -/
def update_package_in_spdx_sbom (image_name docid : String)
    (pkgs : List Package) (relList : List Rel) :
    Except String (List Package × List Rel) :=
  let pkgs1 := Package.mk "SPDXRef-image" image_name :: pkgs
  let heap0 : Nat → Rel := fun i => relList.getD i (Rel.mk "" "" "")
  let order := List.range relList.length
  match redirectLoop docid "SPDXRef-image" order pkgs1 order heap0 with
  | .error e => .error e
  | .ok (pkgs2, rels2, heap2) =>
    .ok (pkgs2, Rel.mk docid "DESCRIBES" "SPDXRef-image" :: rels2.map heap2)

/-- The claim C7 as stated: after annotation the document carries exactly
one DESCRIBES relationship.  False: when a relationship earlier in the
list also references the virtual root, the deletion removes that earlier
relationship, the original DESCRIBES relationship survives redirected,
and the output carries two document-DESCRIBES entries. -/
theorem update_spdx_claimC7_counterexample :
    update_package_in_spdx_sbom "app" "SPDXRef-DOCUMENT"
      [Package.mk "SPDXRef-root" ""]
      [Rel.mk "SPDXRef-other" "CONTAINS" "SPDXRef-root",
       Rel.mk "SPDXRef-DOCUMENT" "DESCRIBES" "SPDXRef-root"] =
      .ok ([Package.mk "SPDXRef-image" "app"],
        [Rel.mk "SPDXRef-DOCUMENT" "DESCRIBES" "SPDXRef-image",
         Rel.mk "SPDXRef-DOCUMENT" "DESCRIBES" "SPDXRef-image"]) ∧
    (([Rel.mk "SPDXRef-DOCUMENT" "DESCRIBES" "SPDXRef-image",
       Rel.mk "SPDXRef-DOCUMENT" "DESCRIBES" "SPDXRef-image"]).filter
      (fun r => decide (docDescribes "SPDXRef-DOCUMENT" r))).length = 2 := by
  constructor
  · rfl
  · rfl

/-- The claim C10 as stated: a document-DESCRIBES relationship whose
target is not among the input packages always makes the operation fail.
False: when the dangling target is SPDXRef-image, the freshly inserted
image package satisfies the lookup and the operation succeeds. -/
theorem update_spdx_claimC10_counterexample :
    update_package_in_spdx_sbom "app" "SPDXRef-DOCUMENT"
      []
      [Rel.mk "SPDXRef-DOCUMENT" "DESCRIBES" "SPDXRef-image"] =
      .ok ([Package.mk "SPDXRef-image" "app"],
        [Rel.mk "SPDXRef-DOCUMENT" "DESCRIBES" "SPDXRef-image",
         Rel.mk "SPDXRef-image" "CONTAINS" "SPDXRef-image"]) ∧
    (∀ p ∈ ([] : List Package), p.SPDXID ≠ "SPDXRef-image") := by
  constructor
  · rfl
  · intro p hp
    cases hp

end AddImageReference

namespace AddImageReference

theorem delete_package_subset (i : String) :
    ∀ (pkgs : List Package), ∀ p ∈ delete_package_by_spdx_id pkgs i, p ∈ pkgs
  | [], p, hp => by cases hp
  | q :: rest, p, hp => by
    rw [delete_package_by_spdx_id] at hp
    by_cases hq : q.SPDXID = i
    · rw [if_pos hq] at hp
      exact List.mem_cons_of_mem q hp
    · rw [if_neg hq] at hp
      rcases List.mem_cons.mp hp with rfl | hp
      · exact List.mem_cons_self _ _
      · exact List.mem_cons_of_mem q (delete_package_subset i rest p hp)

theorem redirect_preserve_at (v new : String) (k : Nat) :
    ∀ (rels : List Nat) (h : Nat → Rel),
      (h k).spdxElementId ≠ v → (h k).relatedSpdxElement ≠ v →
      redirect_virtual_root_to_new_root rels h v new k = h k
  | [], h, _, _ => rfl
  | i :: rest, h, he, hr => by
    rw [redirect_virtual_root_to_new_root, List.foldl_cons]
    have hstep : (fun j => if j = i then
        (let r := h i
         let r1 := if r.spdxElementId = v then { r with spdxElementId := new } else r
         if r1.relatedSpdxElement = v then { r1 with relatedSpdxElement := new } else r1)
      else h j) k = h k := by
      by_cases hik : k = i
      · subst hik
        simp [he, hr]
      · simp only [if_neg hik]
    have := redirect_preserve_at v new k rest (fun j => if j = i then
        (let r := h i
         let r1 := if r.spdxElementId = v then { r with spdxElementId := new } else r
         if r1.relatedSpdxElement = v then { r1 with relatedSpdxElement := new } else r1)
      else h j) (by rw [hstep]; exact he) (by rw [hstep]; exact hr)
    rw [redirect_virtual_root_to_new_root] at this
    rw [this, hstep]

theorem find_package_spec {pkgs : List Package} {x : String} {p : Package}
    (h : find_package_by_spdx_id pkgs x = some p) :
    p ∈ pkgs ∧ p.SPDXID = x := by
  rw [find_package_by_spdx_id] at h
  refine ⟨List.mem_of_find?_eq_some h, ?_⟩
  have h2 := List.find?_some h
  exact of_decide_eq_true h2

theorem find_package_none {pkgs : List Package} {x : String}
    (h : ∀ p ∈ pkgs, p.SPDXID ≠ x) :
    find_package_by_spdx_id pkgs x = none := by
  rw [find_package_by_spdx_id]
  apply List.find?_eq_none.mpr
  intro p hp
  simp only [decide_eq_true_eq]
  exact h p hp

theorem redirectLoop_errors (docid X : String) (inputIds : List String)
    (hXimg : X ≠ "SPDXRef-image") (hXin : X ∉ inputIds)
    (hdimg : docid ≠ "SPDXRef-image") (hdin : docid ∉ inputIds) :
    ∀ (order : List Nat) (k : Nat) (pkgs : List Package) (rels : List Nat)
      (heap : Nat → Rel),
      (∀ p ∈ pkgs, p.SPDXID = "SPDXRef-image" ∨ p.SPDXID ∈ inputIds) →
      k ∈ order → heap k = Rel.mk docid "DESCRIBES" X →
      ∃ e, redirectLoop docid "SPDXRef-image" order pkgs rels heap = .error e
  | [], k, pkgs, rels, heap, hinv, hk, hheap => by cases hk
  | i :: order, k, pkgs, rels, heap, hinv, hk, hheap => by
    rw [redirectLoop]
    by_cases hki : k = i
    · subst hki
      rw [hheap]
      rw [if_pos (by constructor <;> rfl)]
      have hnone : find_package_by_spdx_id pkgs
          (Rel.mk docid "DESCRIBES" X).relatedSpdxElement = none := by
        apply find_package_none
        intro p hp he
        have heX : p.SPDXID = X := he
        rcases hinv p hp with h | h
        · exact hXimg (heX.symm.trans h)
        · exact hXin (heX ▸ h)
      rw [hnone]
      exact ⟨_, rfl⟩
    · have hk2 : k ∈ order := by
        rcases List.mem_cons.mp hk with h | h
        · exact absurd h hki
        · exact h
      by_cases hdd : docDescribes docid (heap i)
      · rw [if_pos hdd]
        cases hfind : find_package_by_spdx_id pkgs (heap i).relatedSpdxElement with
        | none =>
          simp only [hfind]
          exact ⟨_, rfl⟩
        | some current_root =>
          simp only [hfind]
          have hroot : current_root ∈ pkgs ∧
              current_root.SPDXID = (heap i).relatedSpdxElement :=
            find_package_spec hfind
          by_cases hvirt : is_virtual_root current_root = true
          · rw [if_pos hvirt]
            have hv1 : (heap k).spdxElementId ≠ (heap i).relatedSpdxElement := by
              rw [hheap]
              intro he
              have he2 : docid = current_root.SPDXID := by
                rw [hroot.2]
                exact he
              rcases hinv current_root hroot.1 with h | h
              · exact hdimg (he2.trans h)
              · exact hdin (he2 ▸ h)
            have hv2 : (heap k).relatedSpdxElement ≠ (heap i).relatedSpdxElement := by
              rw [hheap]
              intro he
              have he2 : X = current_root.SPDXID := by
                rw [hroot.2]
                exact he
              rcases hinv current_root hroot.1 with h | h
              · exact hXimg (he2.trans h)
              · exact hXin (he2 ▸ h)
            have hpres := redirect_preserve_at (heap i).relatedSpdxElement
              "SPDXRef-image" k
              (delete_relationship_by_related heap rels (heap i).relatedSpdxElement)
              heap hv1 hv2
            exact redirectLoop_errors docid X inputIds hXimg hXin hdimg hdin
              order k _ _ _
              (fun p hp => hinv p (delete_package_subset _ pkgs p hp))
              hk2 (hpres.trans hheap)
          · rw [if_neg hvirt]
            exact redirectLoop_errors docid X inputIds hXimg hXin hdimg hdin
              order k pkgs rels _ hinv hk2
              (by rw [if_neg hki]; exact hheap)
      · rw [if_neg hdd]
        exact redirectLoop_errors docid X inputIds hXimg hXin hdimg hdin
          order k pkgs rels heap hinv hk2 hheap

/-- C10 (amended): a document-DESCRIBES relationship whose target is
neither the SPDXID of any input package nor the freshly inserted
SPDXRef-image makes the annotation fail with an exception (the lookup
yields nothing and is_virtual_root is applied to the missing package),
provided the document SPDXID is itself neither a package SPDXID nor
SPDXRef-image. -/
theorem update_spdx_missing_target_errors
    (image_name docid X : String) (pkgs : List Package) (relList : List Rel)
    (hrel : Rel.mk docid "DESCRIBES" X ∈ relList)
    (hXin : ∀ p ∈ pkgs, p.SPDXID ≠ X) (hXimg : X ≠ "SPDXRef-image")
    (hdin : ∀ p ∈ pkgs, p.SPDXID ≠ docid) (hdimg : docid ≠ "SPDXRef-image") :
    ∃ e, update_package_in_spdx_sbom image_name docid pkgs relList = .error e := by
  rcases List.getElem_of_mem hrel with ⟨k, hklt, hkget⟩
  have hheap : (fun i => relList.getD i (Rel.mk "" "" "")) k =
      Rel.mk docid "DESCRIBES" X := by
    simp only [List.getD_eq_getElem?_getD, List.getElem?_eq_getElem hklt, hkget,
      Option.getD_some]
  have hloop := redirectLoop_errors docid X (pkgs.map (fun p => p.SPDXID))
    hXimg
    (by
      intro hm
      rcases List.mem_map.mp hm with ⟨p, hp, he⟩
      exact hXin p hp he)
    hdimg
    (by
      intro hm
      rcases List.mem_map.mp hm with ⟨p, hp, he⟩
      exact hdin p hp he)
    (List.range relList.length) k
    (Package.mk "SPDXRef-image" image_name :: pkgs)
    (List.range relList.length)
    (fun i => relList.getD i (Rel.mk "" "" ""))
    (by
      intro p hp
      rcases List.mem_cons.mp hp with rfl | hp
      · exact Or.inl rfl
      · exact Or.inr (List.mem_map_of_mem _ hp))
    (List.mem_range.mpr hklt) hheap
  rcases hloop with ⟨e, he⟩
  rw [update_package_in_spdx_sbom]
  rw [he]
  exact ⟨e, rfl⟩

/-- Closed instance of the amended C10 theorem: a dangling DESCRIBES
target makes the annotation raise. -/
theorem update_spdx_missing_target_errors_witness :
    ∃ e, update_package_in_spdx_sbom "app" "SPDXRef-DOCUMENT" []
      [Rel.mk "SPDXRef-DOCUMENT" "DESCRIBES" "SPDXRef-gone"] = .error e :=
  update_spdx_missing_target_errors "app" "SPDXRef-DOCUMENT" "SPDXRef-gone" []
    [Rel.mk "SPDXRef-DOCUMENT" "DESCRIBES" "SPDXRef-gone"]
    (List.mem_singleton.mpr rfl)
    (fun p hp => absurd hp (List.not_mem_nil p))
    (by decide)
    (fun p hp => absurd hp (List.not_mem_nil p))
    (by decide)

end AddImageReference

namespace AddImageReference

/-- The pointwise effect of redirect_virtual_root_to_new_root on one
relationship dict: rename the virtual root in both endpoint fields. -/
def updRel (v new : String) (r : Rel) : Rel :=
  let r1 := if r.spdxElementId = v then { r with spdxElementId := new } else r
  if r1.relatedSpdxElement = v then { r1 with relatedSpdxElement := new } else r1

theorem redirect_cons (v new : String) (i : Nat) (rest : List Nat) (h : Nat → Rel) :
    redirect_virtual_root_to_new_root (i :: rest) h v new =
      redirect_virtual_root_to_new_root rest
        (fun j => if j = i then updRel v new (h i) else h j) v new := rfl

theorem updRel_idem (v new : String) (r : Rel) :
    updRel v new (updRel v new r) = updRel v new r := by
  cases r with
  | mk a b c =>
    by_cases hn : new = v
    · subst hn
      rw [updRel, updRel]
      by_cases ha : a = new <;> by_cases hc : c = new <;> simp [ha, hc]
    · rw [updRel, updRel]
      by_cases ha : a = v <;> by_cases hc : c = v <;> simp [ha, hc, hn]

theorem redirect_point (v new : String) :
    ∀ (rels : List Nat) (h : Nat → Rel) (k : Nat),
      redirect_virtual_root_to_new_root rels h v new k =
        if k ∈ rels then updRel v new (h k) else h k
  | [], h, k => by simp [redirect_virtual_root_to_new_root]
  | i :: rest, h, k => by
    rw [redirect_cons]
    rw [redirect_point v new rest (fun j => if j = i then updRel v new (h i) else h j) k]
    by_cases hki : k = i
    · subst hki
      by_cases hkr : k ∈ rest
      · rw [if_pos hkr, if_pos rfl, if_pos (List.mem_cons_self k rest), updRel_idem]
      · rw [if_neg hkr, if_pos rfl, if_pos (List.mem_cons_self k rest)]
    · by_cases hkr : k ∈ rest
      · rw [if_pos hkr, if_neg hki, if_pos (List.mem_cons_of_mem i hkr)]
      · rw [if_neg hkr, if_neg hki, if_neg (by
          rw [List.mem_cons]
          rintro (h | h)
          · exact hki h
          · exact hkr h)]

theorem updRel_preserves_dead {docid : String} (v new : String) {r : Rel}
    (hnd : new ≠ docid) (hr : ¬ docDescribes docid r) :
    ¬ docDescribes docid (updRel v new r) := by
  cases r with
  | mk a b c =>
    rw [updRel]
    by_cases ha : a = v <;> by_cases hc : c = v <;>
      simp only [ha, hc, if_pos, if_neg, docDescribes, not_and] at hr ⊢ <;>
      simp_all [docDescribes]

theorem updRel_related_eq {v new target : String} (hvn : new ≠ target)
    (htv : target ≠ v) (r : Rel) :
    ((updRel v new r).relatedSpdxElement = target) ↔
      (r.relatedSpdxElement = target) := by
  cases r with
  | mk a b c =>
    rw [updRel]
    by_cases ha : a = v <;> by_cases hc : c = v <;>
      simp [ha, hc, hvn, Ne.symm htv]

theorem updRel_eq_describes {v0 new docid v : String} {r : Rel}
    (hnd : new ≠ docid) (hnv : new ≠ v)
    (hu : updRel v0 new r = Rel.mk docid "DESCRIBES" v) :
    r = Rel.mk docid "DESCRIBES" v ∧ v ≠ v0 := by
  cases r with
  | mk a b c =>
    rw [updRel] at hu
    by_cases ha : a = v0 <;> by_cases hc : c = v0 <;>
      simp only [ha, hc, if_pos, if_neg, Rel.mk.injEq] at hu <;>
      simp_all

theorem delete_rel_sublist (heap : Nat → Rel) (v : String) :
    ∀ rels : List Nat,
      List.Sublist (delete_relationship_by_related heap rels v) rels
  | [] => List.Sublist.refl []
  | i :: rest => by
    rw [delete_relationship_by_related]
    by_cases hq : (heap i).relatedSpdxElement = v
    · rw [if_pos hq]
      exact List.Sublist.cons i (List.Sublist.refl rest)
    · rw [if_neg hq]
      exact List.Sublist.cons₂ i (delete_rel_sublist heap v rest)

theorem mem_delete {heap : Nat → Rel} {v : String} {i0 : Nat} :
    ∀ {rels : List Nat}, rels.Nodup →
      rels.find? (fun j => decide ((heap j).relatedSpdxElement = v)) = some i0 →
      ∀ j, (j ∈ delete_relationship_by_related heap rels v ↔ j ∈ rels ∧ j ≠ i0)
  | [], _, hfind => by cases hfind
  | i :: rest, hnd, hfind => by
    intro j
    cases hd : decide ((heap i).relatedSpdxElement = v) with
    | true =>
      have hq : (heap i).relatedSpdxElement = v := of_decide_eq_true hd
      simp only [List.find?_cons, hd] at hfind
      rw [delete_relationship_by_related, if_pos hq]
      have hi0 : i = i0 := by injection hfind
      subst hi0
      have hnotin : i ∉ rest := (List.nodup_cons.mp hnd).1
      constructor
      · intro hj
        exact ⟨List.mem_cons_of_mem i hj, fun he => hnotin (he ▸ hj)⟩
      · rintro ⟨hj, hne⟩
        rcases List.mem_cons.mp hj with rfl | hj
        · exact absurd rfl hne
        · exact hj
    | false =>
      have hq : ¬ (heap i).relatedSpdxElement = v := of_decide_eq_false hd
      simp only [List.find?_cons, hd] at hfind
      rw [delete_relationship_by_related, if_neg hq]
      have hi0rest : i0 ∈ rest := List.mem_of_find?_eq_some hfind
      have hii0 : i ≠ i0 := fun he => (List.nodup_cons.mp hnd).1 (he ▸ hi0rest)
      rw [List.mem_cons, List.mem_cons,
        mem_delete (List.nodup_cons.mp hnd).2 hfind j]
      constructor
      · rintro (rfl | ⟨hj, hne⟩)
        · exact ⟨Or.inl rfl, hii0⟩
        · exact ⟨Or.inr hj, hne⟩
      · rintro ⟨rfl | hj, hne⟩
        · exact Or.inl rfl
        · exact Or.inr ⟨hj, hne⟩

theorem find?_delete (heap : Nat → Rel) (v0 : String) (p : Nat → Bool)
    (hpq : ∀ j, (heap j).relatedSpdxElement = v0 → p j = false) :
    ∀ rels : List Nat,
      (delete_relationship_by_related heap rels v0).find? p = rels.find? p
  | [] => rfl
  | i :: rest => by
    by_cases hq : (heap i).relatedSpdxElement = v0
    · rw [delete_relationship_by_related, if_pos hq]
      simp only [List.find?_cons, hpq i hq]
    · rw [delete_relationship_by_related, if_neg hq]
      simp only [List.find?_cons]
      cases hpi : p i
      · simp only [hpi]
        exact find?_delete heap v0 p hpq rest
      · simp only [hpi]

end AddImageReference

namespace AddImageReference

theorem redirectLoop_kills_describes
    (docid image_name : String) (inputPkgs : List Package)
    (hdoc : docid ≠ "SPDXRef-image")
    (himgp : ∀ p ∈ inputPkgs, p.SPDXID ≠ "SPDXRef-image")
    (himgname : is_virtual_root (Package.mk "SPDXRef-image" image_name) = false) :
    ∀ (order : List Nat) (pkgs : List Package) (rels : List Nat) (heap : Nat → Rel),
      order.Nodup → rels.Nodup →
      (∀ p ∈ pkgs, p = Package.mk "SPDXRef-image" image_name ∨ p ∈ inputPkgs) →
      (∀ i ∈ rels, i ∈ order ∨ ¬ docDescribes docid (heap i)) →
      (∀ i ∈ order, i ∈ rels) →
      (∀ i ∈ order, ∀ v, heap i = Rel.mk docid "DESCRIBES" v →
        (∃ p ∈ inputPkgs, p.SPDXID = v ∧ is_virtual_root p = true) →
        rels.find? (fun j => decide ((heap j).relatedSpdxElement = v)) = some i) →
      ∀ pkgs2 rels2 heap2,
        redirectLoop docid "SPDXRef-image" order pkgs rels heap =
          .ok (pkgs2, rels2, heap2) →
        ∀ j ∈ rels2, ¬ docDescribes docid (heap2 j)
  | [], pkgs, rels, heap, _, _, _, hI4, _, _, pkgs2, rels2, heap2, hok, j, hj => by
    rw [redirectLoop] at hok
    injection hok with h
    injection h with h1 h
    injection h with h2 h3
    subst h1 h2 h3
    rcases hI4 j hj with h | h
    · cases h
    · exact h
  | i :: order, pkgs, rels, heap, hndO, hndR, hI3, hI4, hI5, hI6,
      pkgs2, rels2, heap2, hok, j, hj => by
    rw [redirectLoop] at hok
    by_cases hdd : docDescribes docid (heap i)
    · rw [if_pos hdd] at hok
      cases hfind : find_package_by_spdx_id pkgs (heap i).relatedSpdxElement with
      | none =>
        simp only [hfind] at hok
        cases hok
      | some current_root =>
        simp only [hfind] at hok
        by_cases hvirt : is_virtual_root current_root = true
        · rw [if_pos hvirt] at hok
          obtain ⟨hel, hty⟩ := hdd
          have hroot := find_package_spec hfind
          have hcrIn : current_root ∈ inputPkgs := by
            rcases hI3 current_root hroot.1 with rfl | h
            · rw [himgname] at hvirt
              cases hvirt
            · exact h
          have hre : heap i = Rel.mk docid "DESCRIBES" (heap i).relatedSpdxElement := by
            rw [← hel, ← hty]
          have hfindRel := hI6 i (List.mem_cons_self i order) _ hre
            ⟨current_root, hcrIn, hroot.2, hvirt⟩
          have hvImg : (heap i).relatedSpdxElement ≠ "SPDXRef-image" := by
            intro he
            exact himgp current_root hcrIn (hroot.2.trans he)
          have hmemD := mem_delete hndR hfindRel
          have hI5D : ∀ i' ∈ order,
              i' ∈ delete_relationship_by_related heap rels
                (heap i).relatedSpdxElement := by
            intro i' hi'
            exact (hmemD i').mpr ⟨hI5 i' (List.mem_cons_of_mem i hi'),
              fun he => (List.nodup_cons.mp hndO).1 (he ▸ hi')⟩
          refine redirectLoop_kills_describes docid image_name inputPkgs hdoc himgp
            himgname order _ _ _ (List.Nodup.of_cons hndO)
            ((delete_rel_sublist heap _ rels).nodup hndR)
            (fun p hp => hI3 p (delete_package_subset _ pkgs p hp))
            ?_ hI5D ?_ pkgs2 rels2 heap2 hok j hj
          · intro i' hi'
            have hiR := (hmemD i').mp hi'
            rcases hI4 i' hiR.1 with hmem | hdead
            · rcases List.mem_cons.mp hmem with rfl | h
              · exact absurd rfl hiR.2
              · exact Or.inl h
            · right
              rw [redirect_point _ _ _ heap i', if_pos hi']
              exact updRel_preserves_dead _ _ (Ne.symm hdoc) hdead
          · intro i' hi' v hheq hex
            have hi'D := hI5D i' hi'
            rw [redirect_point _ _ _ heap i', if_pos hi'D] at hheq
            obtain ⟨p, hpIn, hpId, hpV⟩ := hex
            have hvimg : v ≠ "SPDXRef-image" := fun he => himgp p hpIn (hpId.trans he)
            obtain ⟨hre', hvv0⟩ :=
              updRel_eq_describes (Ne.symm hdoc) (Ne.symm hvimg) hheq
            have hfind' := hI6 i' (List.mem_cons_of_mem i hi') v hre'
              ⟨p, hpIn, hpId, hpV⟩
            have hpe : (fun k => decide
                ((redirect_virtual_root_to_new_root
                  (delete_relationship_by_related heap rels
                    (heap i).relatedSpdxElement) heap
                  (heap i).relatedSpdxElement "SPDXRef-image" k).relatedSpdxElement
                  = v)) =
                (fun k => decide ((heap k).relatedSpdxElement = v)) := by
              funext k
              by_cases hkD : k ∈ delete_relationship_by_related heap rels
                  (heap i).relatedSpdxElement
              · rw [redirect_point _ _ _ heap k, if_pos hkD]
                rw [decide_eq_decide]
                exact updRel_related_eq (Ne.symm hvimg) hvv0 (heap k)
              · rw [redirect_point _ _ _ heap k, if_neg hkD]
            rw [hpe]
            rw [find?_delete heap _ _ (fun k hk => by
              rw [decide_eq_false_iff_not, hk]
              exact fun he => hvv0 he.symm) rels]
            exact hfind'
        · rw [if_neg hvirt] at hok
          have hine : i ∉ order := (List.nodup_cons.mp hndO).1
          refine redirectLoop_kills_describes docid image_name inputPkgs hdoc himgp
            himgname order pkgs rels _ (List.Nodup.of_cons hndO) hndR hI3
            ?_ (fun i' hi' => hI5 i' (List.mem_cons_of_mem i hi')) ?_
            pkgs2 rels2 heap2 hok j hj
          · intro i' hi'
            by_cases hi'i : i' = i
            · subst hi'i
              right
              rw [if_pos rfl]
              rintro ⟨_, hty⟩
              have hty2 : ("CONTAINS" : String) = "DESCRIBES" := hty
              exact absurd hty2 (by decide)
            · rcases hI4 i' hi' with hmem | hdead
              · rcases List.mem_cons.mp hmem with rfl | h
                · exact absurd rfl hi'i
                · exact Or.inl h
              · right
                rw [if_neg hi'i]
                exact hdead
          · intro i' hi' v hheq hex
            have hi'i : i' ≠ i := fun he => hine (he ▸ hi')
            rw [if_neg hi'i] at hheq
            have hfind' := hI6 i' (List.mem_cons_of_mem i hi') v hheq hex
            have hpe : (fun k => decide ((if k = i then
                Rel.mk "SPDXRef-image" "CONTAINS" (heap i).relatedSpdxElement
                else heap k).relatedSpdxElement = v)) =
                (fun k => decide ((heap k).relatedSpdxElement = v)) := by
              funext k
              by_cases hki : k = i
              · subst hki
                rw [if_pos rfl]
              · rw [if_neg hki]
            rw [hpe]
            exact hfind'
    · rw [if_neg hdd] at hok
      refine redirectLoop_kills_describes docid image_name inputPkgs hdoc himgp
        himgname order pkgs rels heap (List.Nodup.of_cons hndO) hndR hI3
        ?_ (fun i' hi' => hI5 i' (List.mem_cons_of_mem i hi'))
        (fun i' hi' => hI6 i' (List.mem_cons_of_mem i hi'))
        pkgs2 rels2 heap2 hok j hj
      intro i' hi'
      rcases hI4 i' hi' with hmem | hdead
      · rcases List.mem_cons.mp hmem with rfl | h
        · exact Or.inr hdd
        · exact Or.inl h
      · exact Or.inr hdead

end AddImageReference

namespace AddImageReference

/-- C7 (amended): updating an SPDX document whose document SPDXID is not
SPDXRef-image and not a package id, whose input packages do not use the
id SPDXRef-image, whose image name does not make the inserted package
virtual, and in which every document-DESCRIBES relationship aimed at a
virtual package is the first relationship referencing that target, yields
exactly one document-DESCRIBES relationship, aimed at SPDXRef-image. -/
theorem update_spdx_exactly_one_describes
    (image_name docid : String) (pkgs : List Package) (relList : List Rel)
    (hdoc : docid ≠ "SPDXRef-image")
    (himgp : ∀ p ∈ pkgs, p.SPDXID ≠ "SPDXRef-image")
    (himgname : is_virtual_root (Package.mk "SPDXRef-image" image_name) = false)
    (hq : ∀ i ∈ List.range relList.length, ∀ v,
      relList.getD i (Rel.mk "" "" "") = Rel.mk docid "DESCRIBES" v →
      (∃ p ∈ pkgs, p.SPDXID = v ∧ is_virtual_root p = true) →
      (List.range relList.length).find?
        (fun j => decide ((relList.getD j (Rel.mk "" "" "")).relatedSpdxElement = v))
        = some i)
    (outPkgs : List Package) (outRels : List Rel)
    (hok : update_package_in_spdx_sbom image_name docid pkgs relList =
      .ok (outPkgs, outRels)) :
    outRels.filter (fun r => decide (docDescribes docid r)) =
      [Rel.mk docid "DESCRIBES" "SPDXRef-image"] := by
  rw [update_package_in_spdx_sbom] at hok
  cases hloop : redirectLoop docid "SPDXRef-image" (List.range relList.length)
      (Package.mk "SPDXRef-image" image_name :: pkgs) (List.range relList.length)
      (fun i => relList.getD i (Rel.mk "" "" "")) with
  | error e =>
    rw [hloop] at hok
    cases hok
  | ok res =>
    obtain ⟨pkgs2, rels2, heap2⟩ := res
    rw [hloop] at hok
    injection hok with h
    injection h with h1 h2
    subst h2
    have hdead := redirectLoop_kills_describes docid image_name pkgs hdoc himgp
      himgname (List.range relList.length)
      (Package.mk "SPDXRef-image" image_name :: pkgs) (List.range relList.length)
      (fun i => relList.getD i (Rel.mk "" "" ""))
      (List.nodup_range relList.length) (List.nodup_range relList.length)
      (fun p hp => List.mem_cons.mp hp)
      (fun i hi => Or.inl hi) (fun i hi => hi) hq pkgs2 rels2 heap2 hloop
    have htail : (rels2.map heap2).filter
        (fun r => decide (docDescribes docid r)) = [] := by
      rw [List.filter_eq_nil_iff]
      intro a ha
      rcases List.mem_map.mp ha with ⟨i, hi, rfl⟩
      simp only [decide_eq_true_eq]
      exact hdead i hi
    rw [List.filter_cons, if_pos (by
      simp only [decide_eq_true_eq]
      exact ⟨rfl, rfl⟩), htail]

/-- Closed instance of the amended C7 theorem: annotating a document with
one virtual root and its DESCRIBES relationship leaves exactly one
document-DESCRIBES relationship, aimed at SPDXRef-image. -/
theorem update_spdx_exactly_one_describes_witness :
    update_package_in_spdx_sbom "app" "SPDXRef-DOCUMENT"
      [Package.mk "SPDXRef-root" ""]
      [Rel.mk "SPDXRef-DOCUMENT" "DESCRIBES" "SPDXRef-root"] =
      .ok ([Package.mk "SPDXRef-image" "app"],
        [Rel.mk "SPDXRef-DOCUMENT" "DESCRIBES" "SPDXRef-image"]) ∧
    ([Rel.mk "SPDXRef-DOCUMENT" "DESCRIBES" "SPDXRef-image"]).filter
      (fun r => decide (docDescribes "SPDXRef-DOCUMENT" r)) =
      [Rel.mk "SPDXRef-DOCUMENT" "DESCRIBES" "SPDXRef-image"] := by
  refine ⟨rfl, ?_⟩
  refine update_spdx_exactly_one_describes "app" "SPDXRef-DOCUMENT"
    [Package.mk "SPDXRef-root" ""]
    [Rel.mk "SPDXRef-DOCUMENT" "DESCRIBES" "SPDXRef-root"]
    (by decide) (by decide) (by decide) ?_ _ _ rfl
  intro i hi v hrel hex
  have hi0 : i = 0 := by
    have h1 : i < 1 := List.mem_range.mp hi
    omega
  subst hi0
  have hrel2 : Rel.mk "SPDXRef-DOCUMENT" "DESCRIBES" "SPDXRef-root" =
      Rel.mk "SPDXRef-DOCUMENT" "DESCRIBES" v := hrel
  injection hrel2 with h1 h2 h3
  subst h3
  rfl

end AddImageReference
